import Mathlib

/-!
Verification of the path-search core of the thermodynamics simulator.

Modelling conventions (shallow embedding of the Python source):
* Python floats are modelled as exact rationals `ℚ`.
* The external transcendental functions `np.log` and `np.sqrt` are modelled as
  abstract parameters `rlog rsqrt : ℚ → ℚ` threaded through every definition
  that uses them, so every theorem below holds for any interpretation of the
  logarithm and square root (in particular for the real ones).
* Python `float('inf')` distances are modelled by `WithTop ℚ`.
* Python dictionaries keyed by grid nodes are modelled by total functions
  `Node → _` (the source only ever reads keys that are present).
* `None` is modelled by `Option`.
-/

namespace ThermoSim

/-- Ideal gas constant, `R = 0.0821` in the source (`thermodynamics.py`). -/
def R : ℚ := 821 / 10000

/-- Default mole count, `n = 1.0` in the source (`thermodynamics.py`). -/
def n : ℚ := 1

/-- Per-gas-category heat data `{gamma, Cv, Cp}` from the `GAS_TYPES` table. -/
structure GasProps where
  gamma : ℚ
  Cv : ℚ
  Cp : ℚ
deriving DecidableEq, Repr

/-- `get_gas_properties` from `thermodynamics.py`: dictionary lookup in
`GAS_TYPES` with default `monatomic` for unknown keys. -/
def get_gas_properties (gas_type : String) : GasProps :=
  if gas_type = "diatomic" then ⟨7/5, (5/2) * R, (7/2) * R⟩
  else if gas_type = "polyatomic" then ⟨4/3, 3 * R, 4 * R⟩
  else ⟨5/3, (3/2) * R, (5/2) * R⟩

/-- `calculate_temperature` from `thermodynamics.py`: `T = P·V/(mol·R)`,
returning 0 when the divisor would be zero. -/
def calculate_temperature (P V : ℚ) (mol : ℚ := n) : ℚ :=
  if mol = 0 ∨ R = 0 then 0 else (P * V) / (mol * R)

/-- `calculate_pressure` from `thermodynamics.py`: `P = mol·R·T/V`,
returning 0 when `V = 0`. -/
def calculate_pressure (T V : ℚ) (mol : ℚ := n) : ℚ :=
  if V = 0 then 0 else (mol * R * T) / V

/-- `calculate_volume` from `thermodynamics.py`: `V = mol·R·T/P`,
returning 0 when `P = 0`. -/
def calculate_volume (T P : ℚ) (mol : ℚ := n) : ℚ :=
  if P = 0 then 0 else (mol * R * T) / P

/-- `calculate_entropy_change` from `thermodynamics.py`:
`ΔS = mol·R·ln(V2/V1) + mol·Cv·ln(T2/T1)`, returning 0 whenever any of
`V1, V2, T1, T2` is nonpositive.  `rlog` abstracts `np.log`. -/
def calculate_entropy_change (rlog : ℚ → ℚ) (P1 V1 P2 V2 : ℚ)
    (gas_type : String := "monatomic") (mol : ℚ := n) : ℚ :=
  let gas := get_gas_properties gas_type
  let Cv := gas.Cv
  let T1 := calculate_temperature P1 V1 mol
  let T2 := calculate_temperature P2 V2 mol
  if V1 ≤ 0 ∨ V2 ≤ 0 ∨ T1 ≤ 0 ∨ T2 ≤ 0 then 0
  else mol * R * rlog (V2 / V1) + mol * Cv * rlog (T2 / T1)

/-- `calculate_internal_energy_change` from `thermodynamics.py`:
`ΔU = mol·Cv·(T2 − T1)`. -/
def calculate_internal_energy_change (P1 V1 P2 V2 : ℚ)
    (gas_type : String := "monatomic") (mol : ℚ := n) : ℚ :=
  let gas := get_gas_properties gas_type
  let T1 := calculate_temperature P1 V1 mol
  let T2 := calculate_temperature P2 V2 mol
  mol * gas.Cv * (T2 - T1)

/-- `calculate_enthalpy_change` from `thermodynamics.py`:
`ΔH = mol·Cp·(T2 − T1)`. -/
def calculate_enthalpy_change (P1 V1 P2 V2 : ℚ)
    (gas_type : String := "monatomic") (mol : ℚ := n) : ℚ :=
  let gas := get_gas_properties gas_type
  let T1 := calculate_temperature P1 V1 mol
  let T2 := calculate_temperature P2 V2 mol
  mol * gas.Cp * (T2 - T1)

/-- `calculate_heat` from `thermodynamics.py`: first law, `Q = ΔU + W`. -/
def calculate_heat (dU W : ℚ) : ℚ := dU + W

/-- `calculate_gibbs_free_energy_change` from `thermodynamics.py`:
`ΔG = ΔH − T1·ΔS` using the start temperature. -/
def calculate_gibbs_free_energy_change (rlog : ℚ → ℚ) (P1 V1 P2 V2 : ℚ)
    (gas_type : String := "monatomic") (mol : ℚ := n) : ℚ :=
  let T1 := calculate_temperature P1 V1 mol
  let dH := calculate_enthalpy_change P1 V1 P2 V2 gas_type mol
  let dS := calculate_entropy_change rlog P1 V1 P2 V2 gas_type mol
  dH - T1 * dS

/-- `calculate_efficiency` from `thermodynamics.py`:
`η = 100·W/W_rev`, returning 0 when `W_rev = 0`. -/
def calculate_efficiency (W W_reversible : ℚ) : ℚ :=
  if W_reversible = 0 then 0 else (W / W_reversible) * 100

/-- Trapezoidal sum over successive (P, V) samples: the body of
`integrate.trapezoid(P_array, V_array)`, `Σ (P_i + P_{i+1})/2 · (V_{i+1} − V_i)`. -/
def trapezoid_sum : List (ℚ × ℚ) → ℚ
  | [] => 0
  | [_] => 0
  | (p1, v1) :: (p2, v2) :: rest => (p1 + p2) / 2 * (v2 - v1) + trapezoid_sum ((p2, v2) :: rest)

/-- `calculate_work_general` from `thermodynamics.py`: `W = ∫P dV` by
trapezoidal integration, 0 when fewer than 2 samples. -/
def calculate_work_general (P_array V_array : List ℚ) : ℚ :=
  if P_array.length < 2 ∨ V_array.length < 2 then 0
  else trapezoid_sum (P_array.zip V_array)

/-- Body of `np.linspace(a, b, num)`: `num` evenly spaced samples from `a`
to `b` inclusive.  (For `num = 1` the ℚ-convention `x / 0 = 0` yields `[a]`,
matching numpy.) -/
def linspace (a b : ℚ) (num : ℕ) : List ℚ :=
  (List.range num).map (fun i : ℕ => a + (i : ℚ) * (b - a) / ((num : ℚ) - 1))

/-- `create_grid` from `pathfinding.py`: two linspaces over the (P, V)
rectangle; source defaults are `P ∈ [1, 10]`, `V ∈ [1, 10]`, `grid_size = 50`. -/
def create_grid (P_min : ℚ := 1) (P_max : ℚ := 10) (V_min : ℚ := 1)
    (V_max : ℚ := 10) (grid_size : ℕ := 50) : List ℚ × List ℚ :=
  (linspace P_min P_max grid_size, linspace V_min V_max grid_size)

/-- Running-minimum scan underlying `np.argmin`: `besti`/`bestv` are the index
and value of the current minimum, `i` the index of the list head. -/
def argmin_aux : List ℚ → ℕ → ℕ → ℚ → ℕ
  | [], _, besti, _ => besti
  | x :: rest, i, besti, bestv =>
    if x < bestv then argmin_aux rest (i + 1) i x
    else argmin_aux rest (i + 1) besti bestv

/-- `np.argmin`: index of the first minimal element (0 on the empty list,
where numpy raises instead). -/
def argmin : List ℚ → ℕ
  | [] => 0
  | x :: rest => argmin_aux rest 1 0 x

/-- `find_nearest_grid_point` from `pathfinding.py`: per-axis argmin of the
absolute differences to the requested (P, V). -/
def find_nearest_grid_point (P V : ℚ) (P_grid V_grid : List ℚ) : ℕ × ℕ :=
  (argmin (P_grid.map (fun x => |x - P|)), argmin (V_grid.map (fun x => |x - V|)))

/-- Start/goal node snapping as performed inside `find_optimal_path`: the grid
is always `create_grid 1 10 1 10 grid_size` (only `grid_size` is passed). -/
def fop_snap_node (P V : ℚ) (grid_size : ℕ) : ℕ × ℕ :=
  find_nearest_grid_point P V (create_grid 1 10 1 10 grid_size).1
    (create_grid 1 10 1 10 grid_size).2

/-- A grid node, identified by its integer index pair `(i, j)`. -/
abbrev Node := ℕ × ℕ

/-- Optional search constraints (the keys of the Python `constraints` dict). -/
structure Constraints where
  max_temperature : Option ℚ := none
  min_pressure : Option ℚ := none
  max_pressure : Option ℚ := none
  isothermal_only : Option Bool := none
deriving DecidableEq, Repr

/-- `calculate_edge_weight` from `pathfinding.py`: the scalar edge cost for the
active optimization target (`max_work` negated trapezoid work, `min_entropy`
positive entropy cost, `max_efficiency` negated efficiency ratio; unknown
targets fall back to `max_work`). -/
def calculate_edge_weight (rlog : ℚ → ℚ) (P1 V1 P2 V2 : ℚ)
    (optimization_target : String := "max_work") : ℚ :=
  let P_avg := (P1 + P2) / 2
  let dV := V2 - V1
  let W := P_avg * dV
  if optimization_target = "max_work" then -W
  else if optimization_target = "min_entropy" then
    let dS := calculate_entropy_change rlog P1 V1 P2 V2
    if dS > 0 then |dS| else 1/100
  else if optimization_target = "max_efficiency" then
    let T1 := calculate_temperature P1 V1
    if T1 > 0 ∧ dV ≠ 0 then
      let W_rev := if V2 > 0 ∧ V1 > 0 then n * R * T1 * rlog (V2 / V1) else 0
      if W_rev ≠ 0 then -(W / W_rev) else 0
    else 0
  else -W

/-- Constraint block of `is_valid_edge`: true when some supplied constraint is
violated by the transition (the sequence of early `return False` checks). -/
def constraint_violated (P1 V1 P2 V2 : ℚ) (c : Constraints) : Bool :=
  let T2 := calculate_temperature P2 V2
  (match c.max_temperature with
    | some mt => decide (T2 > mt)
    | none => false) ||
  (match c.min_pressure with
    | some mp => decide (P2 < mp)
    | none => false) ||
  (match c.max_pressure with
    | some mp => decide (P2 > mp)
    | none => false) ||
  (match c.isothermal_only with
    | some b => b && decide (|T2 - calculate_temperature P1 V1| > 10)
    | none => false)

/-- `is_valid_edge` from `pathfinding.py`: hard physical floor on the neighbor
state, optional constraints, and the always-on (by default) second-law filter
with tolerance −0.1. -/
def is_valid_edge (rlog : ℚ → ℚ) (P1 V1 P2 V2 : ℚ) (check_entropy : Bool := true)
    (constraints : Option Constraints := none) : Bool :=
  if V2 < 1/10 ∨ P2 < 1/10 then false
  else if (match constraints with
    | some c => constraint_violated P1 V1 P2 V2 c
    | none => false) then false
  else if check_entropy = true ∧ calculate_entropy_change rlog P1 V1 P2 V2 < -(1/10) then false
  else true

/-- Graphs as produced by `build_graph`: the node list (dict keys) and the
adjacency function (dict values, with the `.get` default `[]`). -/
structure Graph where
  nodes : List Node
  adj : Node → List (Node × ℚ)

/-- Direction sets of `build_graph`: 8-neighborhood with diagonals, else 4. -/
def directions (allow_diagonal : Bool) : List (ℤ × ℤ) :=
  if allow_diagonal then
    [(-1, -1), (-1, 0), (-1, 1), (0, -1), (0, 1), (1, -1), (1, 0), (1, 1)]
  else [(-1, 0), (1, 0), (0, -1), (0, 1)]

/-- Adjacency list built by `build_graph` for one node: in-bounds neighbors in
direction order, filtered by `is_valid_edge` and weighted by
`calculate_edge_weight`.  Out-of-range nodes have no entry (`.get` default). -/
def build_adj (rlog : ℚ → ℚ) (P_grid V_grid : List ℚ) (allow_diagonal : Bool)
    (optimization_target : String) (constraints : Option Constraints)
    (node : Node) : List (Node × ℚ) :=
  let grid_size := P_grid.length
  if node.1 < grid_size ∧ node.2 < grid_size then
    let P1 := P_grid.getD node.1 0
    let V1 := V_grid.getD node.2 0
    (directions allow_diagonal).filterMap (fun d =>
      let ni := (node.1 : ℤ) + d.1
      let nj := (node.2 : ℤ) + d.2
      if 0 ≤ ni ∧ ni < (grid_size : ℤ) ∧ 0 ≤ nj ∧ nj < (grid_size : ℤ) then
        let P2 := P_grid.getD ni.toNat 0
        let V2 := V_grid.getD nj.toNat 0
        if is_valid_edge rlog P1 V1 P2 V2 true constraints then
          some ((ni.toNat, nj.toNat),
            calculate_edge_weight rlog P1 V1 P2 V2 optimization_target)
        else none
      else none)
  else []

/-- `build_graph` from `pathfinding.py`. -/
def build_graph (rlog : ℚ → ℚ) (P_grid V_grid : List ℚ) (allow_diagonal : Bool := true)
    (optimization_target : String := "max_work")
    (constraints : Option Constraints := none) : Graph where
  nodes := (List.range P_grid.length).flatMap
    (fun i => (List.range P_grid.length).map (fun j => (i, j)))
  adj := build_adj rlog P_grid V_grid allow_diagonal optimization_target constraints

/-- Positivity of every argument handed to `rlog` inside
`calculate_entropy_change` (whenever the degenerate-input guard lets the
logarithms be evaluated, both ratios are strictly positive). -/
def entropy_log_args_ok (P1 V1 P2 V2 : ℚ) (mol : ℚ) : Prop :=
  ¬(V1 ≤ 0 ∨ V2 ≤ 0 ∨ calculate_temperature P1 V1 mol ≤ 0 ∨
      calculate_temperature P2 V2 mol ≤ 0) →
    0 < V2 / V1 ∧ 0 < calculate_temperature P2 V2 mol / calculate_temperature P1 V1 mol

/-- No-NaN certificate for `calculate_edge_weight`: every `rlog` application
reached during evaluation receives a strictly positive argument (so the float
computation it models never produces a NaN), for the active target. -/
def edge_weight_log_args_ok (P1 V1 P2 V2 : ℚ) (optimization_target : String) : Prop :=
  if optimization_target = "max_work" then True
  else if optimization_target = "min_entropy" then entropy_log_args_ok P1 V1 P2 V2 n
  else if optimization_target = "max_efficiency" then
    (calculate_temperature P1 V1 > 0 ∧ V2 - V1 ≠ 0 ∧ V2 > 0 ∧ V1 > 0 → 0 < V2 / V1)
  else True

/-- Distances as stored by the search algorithms: `float('inf')` is `⊤`. -/
abbrev Dist := WithTop ℚ

/-- Lexicographic comparison of heap entries `(distance, (i, j))`, exactly the
tuple order `heapq` uses in the source. -/
def entry_ltb (a b : ℚ × Node) : Bool :=
  decide (a.1 < b.1) ||
    (decide (a.1 = b.1) &&
      (decide (a.2.1 < b.2.1) || (decide (a.2.1 = b.2.1) && decide (a.2.2 < b.2.2))))

/-- Smallest entry among `e` and `l` under the tuple order (first occurrence
on ties, which for identical tuples is the only possibility). -/
def select_min (e : ℚ × Node) : List (ℚ × Node) → ℚ × Node
  | [] => e
  | x :: xs => if entry_ltb x e then select_min x xs else select_min e xs

/-- The minimum entry a `heapq.heappop` would return, `none` on the empty heap. -/
def pq_min : List (ℚ × Node) → Option (ℚ × Node)
  | [] => none
  | x :: xs => some (select_min x xs)

/-- Dictionary assignment `distances[a] = b` on the (total-function) distance
map. -/
def updD (dist : Node → Dist) (a : Node) (b : Dist) : Node → Dist :=
  fun v => if v = a then b else dist v

/-- Dictionary assignment `previous[a] = b` on the predecessor map. -/
def updP (prev : Node → Option Node) (a : Node) (b : Option Node) :
    Node → Option Node :=
  fun v => if v = a then b else prev v

/-- The relaxation loop body of `dijkstra`: scan the adjacency list of the
just-settled node `current` (popped with distance `d`), skipping visited
neighbors and recording improvements in the distance map, predecessor map and
heap. -/
def relaxList (current : Node) (d : ℚ) (visited : List Node) :
    List (Node × ℚ) → (Node → Dist) → (Node → Option Node) → List (ℚ × Node) →
      (Node → Dist) × (Node → Option Node) × List (ℚ × Node)
  | [], dist, prev, pq => (dist, prev, pq)
  | (nbr, w) :: rest, dist, prev, pq =>
    if nbr ∈ visited then relaxList current d visited rest dist prev pq
    else if ((d + w : ℚ) : Dist) < dist nbr then
      relaxList current d visited rest
        (updD dist nbr ((d + w : ℚ) : Dist))
        (updP prev nbr (some current))
        ((d + w, nbr) :: pq)
    else relaxList current d visited rest dist prev pq

theorem updD_self (dist : Node → Dist) (a : Node) (b : Dist) : updD dist a b a = b := by
  rw [updD, if_pos rfl]

theorem updD_ne (dist : Node → Dist) (a : Node) (b : Dist) (v : Node) (h : v ≠ a) :
    updD dist a b v = dist v := by
  rw [updD, if_neg h]

theorem updP_self (prev : Node → Option Node) (a : Node) (b : Option Node) :
    updP prev a b a = b := by
  rw [updP, if_pos rfl]

theorem updP_ne (prev : Node → Option Node) (a : Node) (b : Option Node) (v : Node)
    (h : v ≠ a) : updP prev a b v = prev v := by
  rw [updP, if_neg h]

/-- Number of graph nodes not yet settled (first component of the loop
measure). -/
def countFresh (nodes : List Node) (visited : List Node) : ℕ :=
  (nodes.filter (fun v => decide (v ∉ visited))).length

/-- Closedness of the adjacency structure: every neighbor of a node of the
graph is again a node of the graph (true of every graph `build_graph` builds). -/
def Graph.Closed (g : Graph) : Prop :=
  ∀ v ∈ g.nodes, ∀ p ∈ g.adj v, p.1 ∈ g.nodes

instance (g : Graph) : Decidable g.Closed := by
  unfold Graph.Closed
  infer_instance

theorem entry_ltb_true_fst {a b : ℚ × Node} (h : entry_ltb a b = true) : a.1 ≤ b.1 := by
  simp only [entry_ltb, Bool.or_eq_true, Bool.and_eq_true, decide_eq_true_eq] at h
  rcases h with h | ⟨h, _⟩
  · exact le_of_lt h
  · exact le_of_eq h

theorem entry_ltb_false_fst {a b : ℚ × Node} (h : entry_ltb a b = false) : b.1 ≤ a.1 := by
  simp only [entry_ltb, Bool.or_eq_false_iff] at h
  have h1 := h.1
  simp only [decide_eq_false_iff_not] at h1
  exact le_of_not_lt h1

theorem select_min_mem (e : ℚ × Node) (l : List (ℚ × Node)) :
    select_min e l = e ∨ select_min e l ∈ l := by
  induction l generalizing e with
  | nil => exact Or.inl rfl
  | cons x xs ih =>
    rw [select_min]
    split_ifs with hx
    · rcases ih x with h | h
      · exact Or.inr (by rw [h]; exact List.mem_cons_self x xs)
      · exact Or.inr (List.mem_cons_of_mem x h)
    · rcases ih e with h | h
      · exact Or.inl h
      · exact Or.inr (List.mem_cons_of_mem x h)

theorem select_min_le (e : ℚ × Node) (l : List (ℚ × Node)) :
    (select_min e l).1 ≤ e.1 ∧ ∀ x ∈ l, (select_min e l).1 ≤ x.1 := by
  induction l generalizing e with
  | nil => exact ⟨le_refl _, by intro x hx; simp at hx⟩
  | cons x xs ih =>
    rw [select_min]
    split_ifs with hx
    · obtain ⟨h1, h2⟩ := ih x
      refine ⟨le_trans h1 (entry_ltb_true_fst hx), ?_⟩
      intro y hy
      rcases List.mem_cons.mp hy with rfl | hy
      · exact h1
      · exact h2 y hy
    · obtain ⟨h1, h2⟩ := ih e
      refine ⟨h1, ?_⟩
      intro y hy
      rcases List.mem_cons.mp hy with rfl | hy
      · exact le_trans h1 (entry_ltb_false_fst (Bool.not_eq_true _ ▸ hx))
      · exact h2 y hy

theorem pq_min_mem (pq : List (ℚ × Node)) (m : ℚ × Node) (hm : pq_min pq = some m) :
    m ∈ pq := by
  match pq, hm with
  | x :: xs, hm =>
    rw [pq_min, Option.some.injEq] at hm
    rcases select_min_mem x xs with h | h
    · rw [← hm, h]
      exact List.mem_cons_self x xs
    · exact hm ▸ List.mem_cons_of_mem x h

theorem pq_min_le (pq : List (ℚ × Node)) (m : ℚ × Node) (hm : pq_min pq = some m) :
    ∀ x ∈ pq, m.1 ≤ x.1 := by
  match pq, hm with
  | x :: xs, hm =>
    rw [pq_min, Option.some.injEq] at hm
    intro y hy
    rcases List.mem_cons.mp hy with rfl | hy
    · exact hm ▸ (select_min_le y xs).1
    · exact hm ▸ (select_min_le x xs).2 y hy

theorem pq_min_none (pq : List (ℚ × Node)) (hm : pq_min pq = none) : pq = [] := by
  match pq, hm with
  | [], _ => rfl

theorem relaxList_pq_sub (current : Node) (d : ℚ) (visited : List Node) :
    ∀ (adjl : List (Node × ℚ)) (dist : Node → Dist) (prev : Node → Option Node)
      (pq : List (ℚ × Node)) (e : ℚ × Node),
      e ∈ (relaxList current d visited adjl dist prev pq).2.2 →
      e ∈ pq ∨ ∃ w, (e.2, w) ∈ adjl := by
  intro adjl
  induction adjl with
  | nil =>
    intro dist prev pq e he
    exact Or.inl he
  | cons hd rest ih =>
    intro dist prev pq e he
    match hd with
    | (nbr, w) =>
      rw [relaxList] at he
      split_ifs at he with h1 h2
      · rcases ih _ _ _ e he with h | ⟨w2, hw2⟩
        · exact Or.inl h
        · exact Or.inr ⟨w2, List.mem_cons_of_mem _ hw2⟩
      · rcases ih _ _ _ e he with h | ⟨w2, hw2⟩
        · rcases List.mem_cons.mp h with rfl | h
          · exact Or.inr ⟨w, List.mem_cons_self _ _⟩
          · exact Or.inl h
        · exact Or.inr ⟨w2, List.mem_cons_of_mem _ hw2⟩
      · rcases ih _ _ _ e he with h | ⟨w2, hw2⟩
        · exact Or.inl h
        · exact Or.inr ⟨w2, List.mem_cons_of_mem _ hw2⟩

theorem length_filter_le (l : List Node) (p q : Node → Bool)
    (h : ∀ x, q x = true → p x = true) :
    (l.filter q).length ≤ (l.filter p).length := by
  induction l with
  | nil => simp
  | cons x xs ih =>
    by_cases hq : q x = true
    · rw [List.filter_cons_of_pos hq, List.filter_cons_of_pos (h x hq)]
      simpa using ih
    · rw [List.filter_cons_of_neg (by simpa using hq)]
      by_cases hp : p x = true
      · rw [List.filter_cons_of_pos hp]
        simp only [List.length_cons]
        omega
      · rw [List.filter_cons_of_neg (by simpa using hp)]
        exact ih

theorem length_filter_lt (l : List Node) (p q : Node → Bool)
    (h : ∀ x, q x = true → p x = true) (a : Node) (ha : a ∈ l)
    (hpa : p a = true) (hqa : q a = false) :
    (l.filter q).length < (l.filter p).length := by
  induction l with
  | nil => simp at ha
  | cons x xs ih =>
    by_cases hx : x = a
    · subst hx
      rw [List.filter_cons_of_pos hpa, List.filter_cons_of_neg (by simpa using hqa)]
      simp only [List.length_cons]
      have := length_filter_le xs p q h
      omega
    · rcases List.mem_cons.mp ha with rfl | ha2
      · exact absurd rfl hx
      · by_cases hq : q x = true
        · rw [List.filter_cons_of_pos hq, List.filter_cons_of_pos (h x hq)]
          simp only [List.length_cons]
          exact Nat.succ_lt_succ (ih ha2)
        · rw [List.filter_cons_of_neg (by simpa using hq)]
          by_cases hp : p x = true
          · rw [List.filter_cons_of_pos hp]
            simp only [List.length_cons]
            exact Nat.lt_succ_of_lt (ih ha2)
          · rw [List.filter_cons_of_neg (by simpa using hp)]
            exact ih ha2

theorem countFresh_lt (nodes visited : List Node) (a : Node) (ha : a ∈ nodes)
    (hv : a ∉ visited) :
    countFresh nodes (a :: visited) < countFresh nodes visited := by
  apply length_filter_lt
  · intro x hx
    simp only [decide_eq_true_eq] at hx ⊢
    intro hmem
    exact hx (List.mem_cons_of_mem a hmem)
  · exact ha
  · simpa using hv
  · simp

theorem erase_length_lt (pq : List (ℚ × Node)) (m : ℚ × Node) (hm : m ∈ pq) :
    (pq.erase m).length < pq.length := by
  rw [List.length_erase_of_mem hm]
  have : pq.length ≠ 0 := by
    intro h
    rw [List.length_eq_zero] at h
    rw [h] at hm
    simp at hm
  omega

/-- Main loop of `dijkstra` from `pathfinding.py`: pop the minimal heap entry,
skip already-settled nodes, stop when the goal is settled, otherwise settle and
relax the adjacency list.  The two proof arguments (heap entries are graph
nodes; the graph is closed) justify termination and hold for every call the
`dijkstra` wrapper makes. -/
def dloop (g : Graph) (endN : Node) (dist : Node → Dist) (prev : Node → Option Node)
    (visited : List Node) (pq : List (ℚ × Node))
    (hpq : ∀ e ∈ pq, e.2 ∈ g.nodes) (hcl : g.Closed) :
    (Node → Dist) × (Node → Option Node) :=
  match hm : pq_min pq with
  | none => (dist, prev)
  | some m =>
    if hv : m.2 ∈ visited then
      dloop g endN dist prev visited (pq.erase m)
        (fun e he => hpq e (List.mem_of_mem_erase he)) hcl
    else if m.2 = endN then (dist, prev)
    else
      dloop g endN
        (relaxList m.2 m.1 (m.2 :: visited) (g.adj m.2) dist prev (pq.erase m)).1
        (relaxList m.2 m.1 (m.2 :: visited) (g.adj m.2) dist prev (pq.erase m)).2.1
        (m.2 :: visited)
        (relaxList m.2 m.1 (m.2 :: visited) (g.adj m.2) dist prev (pq.erase m)).2.2
        (by
          intro e he
          rcases relaxList_pq_sub m.2 m.1 (m.2 :: visited) (g.adj m.2) dist prev
            (pq.erase m) e he with hin | ⟨w, hw⟩
          · exact hpq e (List.mem_of_mem_erase hin)
          · exact hcl m.2 (hpq m (pq_min_mem pq m hm)) (e.2, w) hw)
        hcl
termination_by (countFresh g.nodes visited, pq.length)
decreasing_by
  · apply Prod.Lex.right
    exact erase_length_lt pq m (pq_min_mem pq m hm)
  · apply Prod.Lex.left
    exact countFresh_lt g.nodes visited m.2 (hpq m (pq_min_mem pq m hm)) hv

/-- Predecessor-chain walk of the path-reconstruction loop of `dijkstra`:
follow `previous` links from `current`, collecting nodes front-first (the
source appends then reverses; accumulating with cons is the same list).
`fuel` bounds the walk; the wrapper passes more fuel than the chain can use. -/
def chain (prev : Node → Option Node) : ℕ → Node → List Node → Option (List Node)
  | 0, _, _ => none
  | fuel + 1, current, acc =>
    match prev current with
    | none => some (current :: acc)
    | some nxt => chain prev fuel nxt (current :: acc)

/-- `dijkstra` from `pathfinding.py`.  Returns the reconstructed path and
`distances[end]`, or `(None, +∞)` when the goal has no predecessor and is not
the start.  The wrapper checks (decidably) that the graph is closed and the
start is a node — true for every graph `build_graph` builds and every in-grid
start — so that the loop's termination arguments apply; otherwise it returns
the no-path answer. -/
def dijkstra (g : Graph) (start endN : Node) : Option (List Node) × Dist :=
  if h : g.Closed ∧ start ∈ g.nodes then
    let res := dloop g endN (fun v => if v = start then ((0 : ℚ) : Dist) else ⊤)
      (fun _ => none) [] [(0, start)]
      (by
        intro e he
        rcases List.mem_singleton.mp he with rfl
        exact h.2) h.1
    if res.2 endN = none ∧ endN ≠ start then (none, ⊤)
    else
      match chain res.2 (g.nodes.length + 1) endN [] with
      | some path => (some path, res.1 endN)
      | none => (none, ⊤)
  else (none, ⊤)

/-- Directed walks of the graph together with their node list and summed edge
weight: `IsPath g s p t c` says `p` lists the nodes of a walk from `s` to `t`
whose edge weights sum to `c`. -/
inductive IsPath (g : Graph) (s : Node) : List Node → Node → ℚ → Prop
  | single : IsPath g s [s] s 0
  | step {v t : Node} {w c : ℚ} {p : List Node} :
      IsPath g s p v c → (t, w) ∈ g.adj v → IsPath g s (p ++ [t]) t (c + w)

/-- Reachability along graph edges. -/
def Reach (g : Graph) (s t : Node) : Prop := ∃ p c, IsPath g s p t c

/-- All edge weights of the graph are nonnegative (the hypothesis under which
Dijkstra is exact). -/
def AllNonneg (g : Graph) : Prop := ∀ v ∈ g.nodes, ∀ p ∈ g.adj v, 0 ≤ p.2

/-- Index of the first occurrence of `a` (length of the list when absent):
settlement rank used by the predecessor-acyclicity invariant. -/
def idxOf (a : Node) : List Node → ℕ
  | [] => 0
  | x :: xs => if x = a then 0 else idxOf a xs + 1

/-- Loop invariant of `dloop`, stated over the distance map, predecessor map,
settled list (most recent first) and heap. -/
structure DInvBase (g : Graph) (s : Node) (dist : Node → Dist)
    (prev : Node → Option Node) (visited : List Node) (pq : List (ℚ × Node)) : Prop where
  achieves : ∀ v (q : ℚ), dist v = (q : Dist) → ∃ p, IsPath g s p v q
  pq_dist : ∀ e ∈ pq, dist e.2 ≤ (e.1 : Dist)
  pq_witness : ∀ v, v ∉ visited → ∀ q : ℚ, dist v = (q : Dist) → (q, v) ∈ pq
  pq_prev : ∀ e ∈ pq, prev e.2 ≠ none ∨ e.2 = s
  vis_prev_start : ∀ v ∈ visited, prev v = none → v = s
  prev_edge : ∀ v u, prev v = some u → u ∈ visited ∧
    ∃ w : ℚ, (v, w) ∈ g.adj u ∧ dist v = dist u + (w : Dist)
  vis_fin : ∀ v ∈ visited, ∃ q : ℚ, dist v = (q : Dist)
  vis_nodup : visited.Nodup
  vis_sub : ∀ v ∈ visited, v ∈ g.nodes
  rank : ∀ v u, prev v = some u → v ∈ visited → idxOf v visited < idxOf u visited
  dist_start : dist s = ((0 : ℚ) : Dist)
  start_case : s ∈ visited ∨ (visited = [] ∧ pq = [(0, s)])
  opt_vis : AllNonneg g → ∀ v ∈ visited, ∀ p (c : ℚ), IsPath g s p v c →
    dist v ≤ (c : Dist)

/-- Frontier property: every edge out of a settled node into an unsettled one
has a relaxed (finite) target distance. -/
def FrontierAll (g : Graph) (visited : List Node) (dist : Node → Dist) : Prop :=
  ∀ v ∈ visited, ∀ e ∈ g.adj v, e.1 ∉ visited → dist e.1 ≠ ⊤

/-- Relaxedness under nonnegative weights: every settled-to-unsettled edge
satisfies the triangle bound. -/
def OptEdgesAll (g : Graph) (visited : List Node) (dist : Node → Dist) : Prop :=
  AllNonneg g → ∀ v ∈ visited, ∀ e ∈ g.adj v, e.1 ∉ visited →
    dist e.1 ≤ dist v + (e.2 : Dist)

/-- Frontier property up to a pending work list: every edge out of a settled
node into an unsettled one has been relaxed (finite target distance) unless it
is an edge of `current` still waiting in `l`. -/
def FrontierExc (g : Graph) (current : Node) (l : List (Node × ℚ))
    (visited : List Node) (dist : Node → Dist) : Prop :=
  ∀ v ∈ visited, ∀ e ∈ g.adj v, e.1 ∉ visited →
    (v = current ∧ e ∈ l) ∨ dist e.1 ≠ ⊤

/-- Relaxedness up to a pending work list, under nonnegative weights: settled
to unsettled edges satisfy the triangle bound unless still pending. -/
def OptEdgesExc (g : Graph) (current : Node) (l : List (Node × ℚ))
    (visited : List Node) (dist : Node → Dist) : Prop :=
  AllNonneg g → ∀ v ∈ visited, ∀ e ∈ g.adj v, e.1 ∉ visited →
    (v = current ∧ e ∈ l) ∨ dist e.1 ≤ dist v + (e.2 : Dist)

/-- Postcondition of `dloop`: the facts the wrapper needs about the returned
distance and predecessor maps, witnessed by the final settled list.  The
disjunction distinguishes the goal-settled exit from heap exhaustion. -/
def DPost (g : Graph) (s endN : Node)
    (res : (Node → Dist) × (Node → Option Node)) : Prop :=
  ∃ visited : List Node,
    (∀ v (q : ℚ), res.1 v = (q : Dist) → ∃ p, IsPath g s p v q) ∧
    (∀ v u, res.2 v = some u → u ∈ visited ∧
      ∃ w : ℚ, (v, w) ∈ g.adj u ∧ res.1 v = res.1 u + (w : Dist)) ∧
    (∀ v ∈ visited, res.2 v = none → v = s) ∧
    (∀ v u, res.2 v = some u → v ∈ visited →
      idxOf v visited < idxOf u visited) ∧
    visited.Nodup ∧ (∀ v ∈ visited, v ∈ g.nodes) ∧
    (∀ v ∈ visited, ∃ q : ℚ, res.1 v = (q : Dist)) ∧
    res.1 s = ((0 : ℚ) : Dist) ∧
    (AllNonneg g → ∀ v ∈ visited, ∀ p (c : ℚ), IsPath g s p v c →
      res.1 v ≤ (c : Dist)) ∧
    (endN ∈ visited ∨
      (s ∈ visited ∧ (∀ v, v ∉ visited → res.1 v = ⊤) ∧
        (∀ v ∈ visited, ∀ e ∈ g.adj v, e.1 ∈ visited)))

/-- `manhattan_heuristic` from `pathfinding.py`: `|Δi| + |Δj|` in index space. -/
def manhattan_heuristic (node goal : Node) (P_grid V_grid : List ℚ) : ℚ :=
  ((((node.1 : ℤ) - goal.1).natAbs : ℚ)) + ((((node.2 : ℤ) - goal.2).natAbs : ℚ))

/-- `euclidean_heuristic` from `pathfinding.py`; `rsqrt` abstracts `np.sqrt`. -/
def euclidean_heuristic (rsqrt : ℚ → ℚ) (node goal : Node)
    (P_grid V_grid : List ℚ) : ℚ :=
  rsqrt ((((node.1 : ℚ) - goal.1) ^ 2) + (((node.2 : ℚ) - goal.2) ^ 2))

/-- `thermodynamic_heuristic` from `pathfinding.py`: 0.8 times the negated
reversible isothermal work, falling back to the euclidean heuristic. -/
def thermodynamic_heuristic (rlog rsqrt : ℚ → ℚ) (node goal : Node)
    (P_grid V_grid : List ℚ) : ℚ :=
  let P1 := P_grid.getD node.1 0
  let V1 := V_grid.getD node.2 0
  let V2 := V_grid.getD goal.2 0
  let T := calculate_temperature P1 V1
  if V1 > 0 ∧ V2 > 0 ∧ T > 0 then (-(n * R * T * rlog (V2 / V1))) * (8/10)
  else euclidean_heuristic rsqrt node goal P_grid V_grid

/-- Heuristic dispatch of `astar` (unknown keys fall back to thermodynamic). -/
def h_select (heuristic : String) (rlog rsqrt : ℚ → ℚ) :
    Node → Node → List ℚ → List ℚ → ℚ :=
  if heuristic = "manhattan" then manhattan_heuristic
  else if heuristic = "euclidean" then euclidean_heuristic rsqrt
  else thermodynamic_heuristic rlog rsqrt

/-- Tuple order on the `(f, g, node)` entries of the A* open set. -/
def entry3_ltb (a b : ℚ × ℚ × Node) : Bool :=
  decide (a.1 < b.1) || (decide (a.1 = b.1) && entry_ltb a.2 b.2)

/-- Minimum `(f, g, node)` entry among `e` and `l`. -/
def select_min3 (e : ℚ × ℚ × Node) : List (ℚ × ℚ × Node) → ℚ × ℚ × Node
  | [] => e
  | x :: xs => if entry3_ltb x e then select_min3 x xs else select_min3 e xs

/-- Minimum entry a `heapq.heappop` on the A* open set would return. -/
def pq_min3 : List (ℚ × ℚ × Node) → Option (ℚ × ℚ × Node)
  | [] => none
  | x :: xs => some (select_min3 x xs)

/-- Neighbor relaxation loop of `astar`: improve g-scores, update f-scores and
`came_from`, and push unseen nodes.  (When `g_score[current]` is `⊤`, no
tentative score can strictly improve a neighbor, so the scan leaves the state
unchanged — the same outcome as the source, where a popped node always has a
finite g-score.) -/
def astar_relax (current : Node) (hfun : Node → ℚ) :
    List (Node × ℚ) → (Node → Dist) → (Node → Dist) → (Node → Option Node) →
      List (ℚ × ℚ × Node) → List Node →
      (Node → Dist) × (Node → Dist) × (Node → Option Node) ×
        List (ℚ × ℚ × Node) × List Node
  | [], gs, fs, cf, os, hash => (gs, fs, cf, os, hash)
  | (nbr, w) :: rest, gs, fs, cf, os, hash =>
    match gs current with
    | none => astar_relax current hfun rest gs fs cf os hash
    | some gq =>
      if ((gq + w : ℚ) : Dist) < gs nbr then
        let f := gq + w + hfun nbr
        if nbr ∈ hash then
          astar_relax current hfun rest (updD gs nbr ((gq + w : ℚ) : Dist))
            (updD fs nbr ((f : ℚ) : Dist)) (updP cf nbr (some current)) os hash
        else
          astar_relax current hfun rest (updD gs nbr ((gq + w : ℚ) : Dist))
            (updD fs nbr ((f : ℚ) : Dist)) (updP cf nbr (some current))
            ((f, gq + w, nbr) :: os) (nbr :: hash)
      else astar_relax current hfun rest gs fs cf os hash

/-- Path-reconstruction loop of `astar`: follow `came_from` links, then append
the start node; built with cons so the list comes out already reversed. -/
def astar_chain (cf : Node → Option Node) (s : Node) :
    ℕ → Node → List Node → Option (List Node)
  | fuel, current, acc =>
    match fuel, cf current with
    | _, none => some (s :: acc)
    | 0, some _ => none
    | f + 1, some nxt => astar_chain cf s f nxt (current :: acc)

/-- Main loop of `astar` from `pathfinding.py`, fuel-indexed (`none` models a
run that exceeds the fuel; the Python loop has no such bound). -/
def astar_loop (g : Graph) (endN s : Node) (hfun : Node → ℚ) :
    ℕ → (Node → Dist) → (Node → Dist) → (Node → Option Node) →
      List (ℚ × ℚ × Node) → List Node → Option (Option (List Node) × Dist)
  | 0, _, _, _, _, _ => none
  | fuel + 1, gs, fs, cf, os, hash =>
    match pq_min3 os with
    | none => some (none, ⊤)
    | some m =>
      if m.2.2 ∉ hash then astar_loop g endN s hfun fuel gs fs cf (os.erase m) hash
      else
        if m.2.2 = endN then
          match astar_chain cf s fuel m.2.2 [] with
          | some path => some (some path, gs endN)
          | none => none
        else
          astar_loop g endN s hfun fuel
            (astar_relax m.2.2 hfun (g.adj m.2.2) gs fs cf (os.erase m)
              (hash.erase m.2.2)).1
            (astar_relax m.2.2 hfun (g.adj m.2.2) gs fs cf (os.erase m)
              (hash.erase m.2.2)).2.1
            (astar_relax m.2.2 hfun (g.adj m.2.2) gs fs cf (os.erase m)
              (hash.erase m.2.2)).2.2.1
            (astar_relax m.2.2 hfun (g.adj m.2.2) gs fs cf (os.erase m)
              (hash.erase m.2.2)).2.2.2.1
            (astar_relax m.2.2 hfun (g.adj m.2.2) gs fs cf (os.erase m)
              (hash.erase m.2.2)).2.2.2.2

/-- `astar` from `pathfinding.py` (fuel-indexed). -/
def astar (g : Graph) (start endN : Node) (P_grid V_grid : List ℚ)
    (heuristic : String) (rlog rsqrt : ℚ → ℚ) (fuel : ℕ) :
    Option (Option (List Node) × Dist) :=
  let h_func := h_select heuristic rlog rsqrt
  let hfun : Node → ℚ := fun v => h_func v endN P_grid V_grid
  astar_loop g endN start hfun fuel
    (fun v => if v = start then ((0 : ℚ) : Dist) else ⊤)
    (fun v => if v = start then ((hfun start : ℚ) : Dist) else ⊤)
    (fun _ => none)
    [(hfun start, 0, start)] [start]

/-- The result dictionary of `find_optimal_path`. -/
structure PathResult where
  P_array : List ℚ
  V_array : List ℚ
  W : ℚ
  Q : ℚ
  dU : ℚ
  dH : ℚ
  dS : ℚ
  dG : ℚ
  W_reversible : ℚ
  efficiency : ℚ
  rtype : String
  algorithm : String
  optimization_target : String
  path_nodes : List Node
  total_cost : Dist
  gas_type : String

/-- Construction of the result dictionary of `find_optimal_path` from the
found node path: the path is converted to (P, V) samples over the fixed grid,
`W` is recomputed by trapezoidal integration over the realized samples, and
the remaining quantities are endpoint-only state functions of the requested
states. -/
def fop_result (rlog : ℚ → ℚ) (P1 V1 P2 V2 : ℚ) (grid_size : ℕ)
    (algorithm optimization_target gas_type : String) (pn : List Node)
    (total_cost : Dist) : PathResult :=
  let P_grid := (create_grid 1 10 1 10 grid_size).1
  let V_grid := (create_grid 1 10 1 10 grid_size).2
  let P_array := pn.map (fun ij => P_grid.getD ij.1 0)
  let V_array := pn.map (fun ij => V_grid.getD ij.2 0)
  let W := calculate_work_general P_array V_array
  let dU := calculate_internal_energy_change P1 V1 P2 V2 gas_type
  let dH := calculate_enthalpy_change P1 V1 P2 V2 gas_type
  let Q := calculate_heat dU W
  let dS := calculate_entropy_change rlog P1 V1 P2 V2 gas_type
  let dG := calculate_gibbs_free_energy_change rlog P1 V1 P2 V2 gas_type
  let T1 := calculate_temperature P1 V1
  let W_reversible := if V1 > 0 ∧ V2 > 0 then n * R * T1 * rlog (V2 / V1) else |W|
  let efficiency := calculate_efficiency W W_reversible
  { P_array := P_array
    V_array := V_array
    W := W
    Q := Q
    dU := dU
    dH := dH
    dS := dS
    dG := dG
    W_reversible := W_reversible
    efficiency := efficiency
    rtype := "최적 경로 (" ++ algorithm.toUpper ++ ")"
    algorithm := algorithm
    optimization_target := optimization_target
    path_nodes := pn
    total_cost := total_cost
    gas_type := gas_type }

/-- `find_optimal_path` from `pathfinding.py`.  The outer `Option` models
termination of the fuel-indexed A* (`none` only when the A* fuel runs out;
the Dijkstra branch always terminates); `some none` is the source's `None`. -/
def find_optimal_path (rlog rsqrt : ℚ → ℚ) (P1 V1 P2 V2 : ℚ) (grid_size : ℕ)
    (allow_diagonal : Bool) (algorithm : String) (optimization_target : String)
    (heuristic : String) (constraints : Option Constraints) (gas_type : String)
    (fuel : ℕ) : Option (Option PathResult) :=
  let grids := create_grid 1 10 1 10 grid_size
  let P_grid := grids.1
  let V_grid := grids.2
  let start_node := fop_snap_node P1 V1 grid_size
  let end_node := fop_snap_node P2 V2 grid_size
  let graph := build_graph rlog P_grid V_grid allow_diagonal optimization_target
    constraints
  let res : Option (Option (List Node) × Dist) :=
    if algorithm = "astar" then
      astar graph start_node end_node P_grid V_grid heuristic rlog rsqrt fuel
    else some (dijkstra graph start_node end_node)
  match res with
  | none => none
  | some (pnopt, total_cost) =>
    match pnopt with
    | none => some none
    | some pn =>
      if pn.length = 0 then some none
      else
        some (some (fop_result rlog P1 V1 P2 V2 grid_size algorithm
          optimization_target gas_type pn total_cost))

instance (g : Graph) : Decidable (AllNonneg g) := by
  unfold AllNonneg
  infer_instance

theorem R_ne_zero : R ≠ 0 := by norm_num [R]

theorem argmin_aux_out (rest : List ℚ) : ∀ (i besti : ℕ) (bestv : ℚ),
    (argmin_aux rest i besti bestv = besti ∧ ∀ j < rest.length, bestv ≤ rest.getD j 0) ∨
    (∃ j < rest.length, argmin_aux rest i besti bestv = i + j ∧
      rest.getD j 0 < bestv ∧ ∀ k < rest.length, rest.getD j 0 ≤ rest.getD k 0) := by
  induction rest with
  | nil => intro i besti bestv; exact Or.inl ⟨rfl, by intro j hj; simp at hj⟩
  | cons x rest ih =>
    intro i besti bestv
    by_cases hx : x < bestv
    · right
      rcases ih (i + 1) i x with ⟨heq, hall⟩ | ⟨j, hj, heq, hlt, hall⟩
      · refine ⟨0, by simp, ?_, ?_, ?_⟩
        · simpa [argmin_aux, hx] using heq
        · simpa using hx
        · intro k hk
          match k with
          | 0 => simp
          | k + 1 =>
            simp only [List.getD_cons_succ, List.getD_cons_zero]
            exact hall k (by simpa using hk)
      · refine ⟨j + 1, by simpa using hj, ?_, ?_, ?_⟩
        · simp only [argmin_aux, if_pos hx]
          rw [heq]
          omega
        · simp only [List.getD_cons_succ]
          exact lt_trans hlt hx
        · intro k hk
          match k with
          | 0 =>
            simp only [List.getD_cons_succ, List.getD_cons_zero]
            exact le_of_lt hlt
          | k + 1 =>
            simp only [List.getD_cons_succ]
            exact hall k (by simpa using hk)
    · rcases ih (i + 1) besti bestv with ⟨heq, hall⟩ | ⟨j, hj, heq, hlt, hall⟩
      · left
        refine ⟨by simpa [argmin_aux, hx] using heq, ?_⟩
        intro k hk
        match k with
        | 0 => simpa using le_of_not_lt hx
        | k + 1 =>
          simp only [List.getD_cons_succ]
          exact hall k (by simpa using hk)
      · right
        refine ⟨j + 1, by simpa using hj, ?_, ?_, ?_⟩
        · simp only [argmin_aux, if_neg hx]
          rw [heq]; omega
        · simpa using hlt
        · intro k hk
          match k with
          | 0 =>
            simp only [List.getD_cons_succ, List.getD_cons_zero]
            exact le_trans (le_of_lt hlt) (le_of_not_lt hx)
          | k + 1 =>
            simp only [List.getD_cons_succ]
            exact hall k (by simpa using hk)

/-- The argmin of a nonempty list is an in-range index of a minimal element. -/
theorem argmin_spec (x : ℚ) (rest : List ℚ) :
    argmin (x :: rest) < (x :: rest).length ∧
    ∀ k < (x :: rest).length,
      (x :: rest).getD (argmin (x :: rest)) 0 ≤ (x :: rest).getD k 0 := by
  rcases argmin_aux_out rest 1 0 x with ⟨heq, hall⟩ | ⟨j, hj, heq, hlt, hall⟩
  · constructor
    · simp [argmin, heq]
    · intro k hk
      simp only [argmin, heq]
      match k with
      | 0 => simp
      | k + 1 =>
        simp only [List.getD_cons_succ, List.getD_cons_zero]
        exact hall k (by simpa using hk)
  · constructor
    · simp only [argmin, heq, List.length_cons]
      omega
    · intro k hk
      have hidx : argmin (x :: rest) = j + 1 := by simp [argmin, heq]; omega
      rw [hidx]
      simp only [List.getD_cons_succ]
      match k with
      | 0 => simpa using le_of_lt hlt
      | k + 1 =>
        simp only [List.getD_cons_succ]
        exact hall k (by simpa using hk)

theorem argmin_lt_length (xs : List ℚ) (h : xs ≠ []) : argmin xs < xs.length := by
  match xs with
  | [] => exact absurd rfl h
  | x :: rest => exact (argmin_spec x rest).1

theorem argmin_min (xs : List ℚ) (h : xs ≠ []) :
    ∀ k < xs.length, xs.getD (argmin xs) 0 ≤ xs.getD k 0 := by
  match xs with
  | [] => exact absurd rfl h
  | x :: rest => exact (argmin_spec x rest).2

theorem entropy_log_args_ok_always (P1 V1 P2 V2 mol : ℚ) :
    entropy_log_args_ok P1 V1 P2 V2 mol := by
  intro h
  push_neg at h
  obtain ⟨h1, h2, h3, h4⟩ := h
  exact ⟨div_pos h2 h1, div_pos h4 h3⟩

theorem edge_weight_log_args_ok_always (P1 V1 P2 V2 : ℚ) (t : String) :
    edge_weight_log_args_ok P1 V1 P2 V2 t := by
  unfold edge_weight_log_args_ok
  split_ifs with h1 h2 h3
  · exact entropy_log_args_ok_always P1 V1 P2 V2 n
  · intro h
    exact div_pos h.2.2.1 h.2.2.2

theorem constraint_violated_false (P1 V1 P2 V2 : ℚ) (c : Constraints)
    (h : constraint_violated P1 V1 P2 V2 c = false) :
    (∀ mt, c.max_temperature = some mt → calculate_temperature P2 V2 ≤ mt) ∧
    (∀ mp, c.min_pressure = some mp → mp ≤ P2) ∧
    (∀ mp, c.max_pressure = some mp → P2 ≤ mp) ∧
    (c.isothermal_only = some true →
      |calculate_temperature P2 V2 - calculate_temperature P1 V1| ≤ 10) := by
  simp only [constraint_violated, Bool.or_eq_false_iff] at h
  obtain ⟨⟨⟨h1, h2⟩, h3⟩, h4⟩ := h
  refine ⟨?_, ?_, ?_, ?_⟩
  · intro mt hmt
    rw [hmt] at h1
    simpa using h1
  · intro mp hmp
    rw [hmp] at h2
    simpa using h2
  · intro mp hmp
    rw [hmp] at h3
    simpa using h3
  · intro hiso
    rw [hiso] at h4
    simpa using h4

theorem is_valid_edge_elim (rlog : ℚ → ℚ) (P1 V1 P2 V2 : ℚ)
    (cons : Option Constraints)
    (h : is_valid_edge rlog P1 V1 P2 V2 true cons = true) :
    1/10 ≤ V2 ∧ 1/10 ≤ P2 ∧
    (∀ c, cons = some c → constraint_violated P1 V1 P2 V2 c = false) ∧
    -(1/10) ≤ calculate_entropy_change rlog P1 V1 P2 V2 := by
  unfold is_valid_edge at h
  split_ifs at h with h1 h2 h3
  push_neg at h1
  refine ⟨h1.1, h1.2, ?_, ?_⟩
  · intro c hc
    rw [hc] at h2
    simpa using h2
  · by_contra hcon
    exact h3 ⟨rfl, by linarith [not_le.mp hcon]⟩

theorem build_adj_mem_elim (rlog : ℚ → ℚ) (P_grid V_grid : List ℚ)
    (allow_diagonal : Bool) (optimization_target : String)
    (cons : Option Constraints) (i j : ℕ) (nbr : Node) (w : ℚ)
    (hmem : (nbr, w) ∈
      build_adj rlog P_grid V_grid allow_diagonal optimization_target cons (i, j)) :
    i < P_grid.length ∧ j < P_grid.length ∧
    nbr.1 < P_grid.length ∧ nbr.2 < P_grid.length ∧
    is_valid_edge rlog (P_grid.getD i 0) (V_grid.getD j 0)
      (P_grid.getD nbr.1 0) (V_grid.getD nbr.2 0) true cons = true ∧
    w = calculate_edge_weight rlog (P_grid.getD i 0) (V_grid.getD j 0)
      (P_grid.getD nbr.1 0) (V_grid.getD nbr.2 0) optimization_target := by
  by_cases hij : i < P_grid.length ∧ j < P_grid.length
  · rw [build_adj, if_pos hij] at hmem
    obtain ⟨d, _, hfd⟩ := List.mem_filterMap.mp hmem
    dsimp only at hfd
    split_ifs at hfd with hb hv
    · rw [Option.some.injEq, Prod.mk.injEq] at hfd
      obtain ⟨hn, hw⟩ := hfd
      have hn1 : nbr.1 = ((i : ℤ) + d.1).toNat := by rw [← hn]
      have hn2 : nbr.2 = ((j : ℤ) + d.2).toNat := by rw [← hn]
      obtain ⟨hb1, hb2, hb3, hb4⟩ := hb
      refine ⟨hij.1, hij.2, by omega, by omega, ?_, ?_⟩
      · rw [hn1, hn2]
        exact hv
      · rw [hn1, hn2]
        exact hw.symm
  · rw [build_adj, if_neg hij] at hmem
    simp at hmem

theorem argmin_eq_zero (xs : List ℚ) (hne : xs ≠ [])
    (h : ∀ k, 0 < k → k < xs.length → xs.getD 0 0 < xs.getD k 0) : argmin xs = 0 := by
  by_contra hne0
  have hpos : 0 < argmin xs := Nat.pos_of_ne_zero hne0
  have hlt := argmin_lt_length xs hne
  have hmin := argmin_min xs hne 0 (by
    match xs with
    | [] => exact absurd rfl hne
    | _ :: _ => simp)
  exact absurd hmin (not_le.mpr (h (argmin xs) hpos hlt))

theorem argmin_eq_last (xs : List ℚ) (hne : xs ≠ [])
    (h : ∀ k, k < xs.length - 1 → xs.getD (xs.length - 1) 0 < xs.getD k 0) :
    argmin xs = xs.length - 1 := by
  have hlt := argmin_lt_length xs hne
  by_contra hne1
  have hlt1 : argmin xs < xs.length - 1 := by omega
  have hmin := argmin_min xs hne (xs.length - 1) (by omega)
  exact absurd hmin (not_le.mpr (h (argmin xs) hlt1))

theorem getD_map_abs (xs : List ℚ) (t : ℚ) (k : ℕ) (hk : k < xs.length) :
    (xs.map (fun x => |x - t|)).getD k 0 = |xs.getD k 0 - t| := by
  rw [List.getD_eq_getElem _ _ (by simpa using hk), List.getD_eq_getElem _ _ hk,
    List.getElem_map]

theorem linspace_length (a b : ℚ) (num : ℕ) : (linspace a b num).length = num := by
  rw [linspace, List.length_map, List.length_range]

theorem linspace_ne_nil (a b : ℚ) (num : ℕ) (h : 0 < num) : linspace a b num ≠ [] := by
  intro hc
  have := linspace_length a b num
  rw [hc] at this
  simp at this
  omega

theorem linspace_getD (a b : ℚ) (num : ℕ) (i : ℕ) (hi : i < num) :
    (linspace a b num).getD i 0 = a + i * (b - a) / ((num : ℚ) - 1) := by
  rw [List.getD_eq_getElem _ _ (by simpa [linspace_length] using hi)]
  simp only [linspace, List.getElem_map, List.getElem_range]

theorem linspace_one_ten_bounds (gs i : ℕ) (h2 : 2 ≤ gs) (hi : i < gs) :
    1 ≤ (linspace 1 10 gs).getD i 0 ∧ (linspace 1 10 gs).getD i 0 ≤ 10 := by
  rw [linspace_getD 1 10 gs i hi]
  have hden : (0 : ℚ) < (gs : ℚ) - 1 := by
    have : (2 : ℚ) ≤ (gs : ℚ) := by exact_mod_cast h2
    linarith
  have hnum : (0 : ℚ) ≤ (i : ℚ) * (10 - 1) := by positivity
  constructor
  · have : 0 ≤ (i : ℚ) * (10 - 1) / ((gs : ℚ) - 1) := by positivity
    linarith
  · have hile : (i : ℚ) ≤ (gs : ℚ) - 1 := by
      have : (i : ℚ) + 1 ≤ (gs : ℚ) := by exact_mod_cast hi
      linarith
    have : (i : ℚ) * (10 - 1) / ((gs : ℚ) - 1) ≤ 9 := by
      rw [div_le_iff₀ hden]
      nlinarith
    linarith

theorem linspace_one_ten_strictmono (gs i j : ℕ) (h2 : 2 ≤ gs) (hij : i < j)
    (hj : j < gs) :
    (linspace 1 10 gs).getD i 0 < (linspace 1 10 gs).getD j 0 := by
  rw [linspace_getD 1 10 gs i (by omega), linspace_getD 1 10 gs j hj]
  have hden : (0 : ℚ) < (gs : ℚ) - 1 := by
    have : (2 : ℚ) ≤ (gs : ℚ) := by exact_mod_cast h2
    linarith
  have hlt : (i : ℚ) < (j : ℚ) := by exact_mod_cast hij
  have hnum : (i : ℚ) * (10 - 1) < (j : ℚ) * (10 - 1) := by nlinarith
  have hdiv : (i : ℚ) * (10 - 1) / ((gs : ℚ) - 1) < (j : ℚ) * (10 - 1) / ((gs : ℚ) - 1) := by
    gcongr
  linarith

theorem snap_axis_high (gs : ℕ) (h2 : 2 ≤ gs) (t : ℚ) (ht : 10 < t) :
    argmin ((linspace 1 10 gs).map (fun x => |x - t|)) = gs - 1 := by
  have hlen : ((linspace 1 10 gs).map (fun x => |x - t|)).length = gs := by
    simp [linspace_length]
  have habs : ∀ m < gs, ((linspace 1 10 gs).map (fun x => |x - t|)).getD m 0 =
      t - (linspace 1 10 gs).getD m 0 := by
    intro m hm
    rw [getD_map_abs _ _ _ (by simpa [linspace_length] using hm)]
    have := (linspace_one_ten_bounds gs m h2 hm).2
    rw [abs_of_neg (by linarith)]
    ring
  have := argmin_eq_last ((linspace 1 10 gs).map (fun x => |x - t|))
    (by
      intro hc
      rw [hc] at hlen
      simp at hlen
      omega)
    (by
      intro k hk
      rw [hlen] at hk ⊢
      rw [habs (gs - 1) (by omega), habs k (by omega)]
      have := linspace_one_ten_strictmono gs k (gs - 1) h2 hk (by omega)
      linarith)
  rwa [hlen] at this

theorem snap_axis_low (gs : ℕ) (h2 : 2 ≤ gs) (t : ℚ) (ht : t < 1) :
    argmin ((linspace 1 10 gs).map (fun x => |x - t|)) = 0 := by
  have hlen : ((linspace 1 10 gs).map (fun x => |x - t|)).length = gs := by
    simp [linspace_length]
  have habs : ∀ m < gs, ((linspace 1 10 gs).map (fun x => |x - t|)).getD m 0 =
      (linspace 1 10 gs).getD m 0 - t := by
    intro m hm
    rw [getD_map_abs _ _ _ (by simpa [linspace_length] using hm)]
    have := (linspace_one_ten_bounds gs m h2 hm).1
    rw [abs_of_pos (by linarith)]
  exact argmin_eq_zero ((linspace 1 10 gs).map (fun x => |x - t|))
    (by
      intro hc
      rw [hc] at hlen
      simp at hlen
      omega)
    (by
      intro k hkpos hk
      rw [hlen] at hk
      rw [habs 0 (by omega), habs k hk]
      have := linspace_one_ten_strictmono gs 0 k h2 hkpos hk
      linarith)

theorem ispath_ne_nil {g : Graph} {s : Node} {p : List Node} {t : Node} {c : ℚ}
    (h : IsPath g s p t c) : p ≠ [] := by
  induction h with
  | single => simp
  | step h hedge ih => simp

theorem ispath_head {g : Graph} {s : Node} {p : List Node} {t : Node} {c : ℚ}
    (h : IsPath g s p t c) : p.head? = some s := by
  induction h with
  | single => rfl
  | step h hedge ih =>
    rename_i v2 t2 w2 c2 p2
    rw [List.head?_append_of_ne_nil _ (ispath_ne_nil h)]
    exact ih

theorem ispath_last {g : Graph} {s : Node} {p : List Node} {t : Node} {c : ℚ}
    (h : IsPath g s p t c) : p.getLast? = some t := by
  induction h with
  | single => rfl
  | step h hedge ih => simp

theorem ispath_mem_nodes {g : Graph} {s : Node} {p : List Node} {t : Node} {c : ℚ}
    (h : IsPath g s p t c) (hs : s ∈ g.nodes) (hcl : g.Closed) : t ∈ g.nodes := by
  induction h with
  | single => exact hs
  | step h hedge ih => exact hcl _ ih _ hedge

theorem withtop_le_coe {d : Dist} {q : ℚ} (h : d ≤ (q : Dist)) :
    ∃ r : ℚ, d = (r : Dist) ∧ r ≤ q := by
  cases d with
  | none =>
    exfalso
    exact WithTop.not_top_le_coe q h
  | some r =>
    refine ⟨r, rfl, ?_⟩
    exact WithTop.coe_le_coe.mp h

theorem pop_bound (g : Graph) (s : Node) (hcl : g.Closed) (hs : s ∈ g.nodes)
    (hw : AllNonneg g) (dist : Node → Dist) (prev : Node → Option Node)
    (visited : List Node) (pq : List (ℚ × Node))
    (hinv : DInvBase g s dist prev visited pq)
    (hoe : OptEdgesAll g visited dist)
    (m : ℚ × Node) (hm : pq_min pq = some m) :
    ∀ (p : List Node) (t : Node) (c : ℚ), IsPath g s p t c → t ∉ visited →
      m.1 ≤ c := by
  intro p t c hp
  induction hp with
  | single =>
    intro hsv
    have hstart : (0, s) ∈ pq := by
      rcases hinv.start_case with hin | ⟨_, hpq⟩
      · exact absurd hin hsv
      · rw [hpq]
        exact List.mem_singleton.mpr rfl
    exact pq_min_le pq m hm (0, s) hstart
  | step hp' hedge ih =>
    rename_i v t2 w c2 p2
    intro htv
    by_cases hvv : v ∈ visited
    · have hdv := hinv.opt_vis hw v hvv p2 c2 hp'
      have hdt := hoe hw v hvv (t2, w) hedge htv
      have hbound : dist t2 ≤ ((c2 + w : ℚ) : Dist) := by
        calc dist t2 ≤ dist v + (w : Dist) := hdt
        _ ≤ (c2 : Dist) + (w : Dist) := by
            exact add_le_add_right hdv _
        _ = ((c2 + w : ℚ) : Dist) := by
            norm_cast
      obtain ⟨q, hq, hqle⟩ := withtop_le_coe hbound
      have := hinv.pq_witness t2 htv q hq
      exact le_trans (pq_min_le pq m hm (q, t2) this) hqle
    · have hvn : v ∈ g.nodes := ispath_mem_nodes hp' hs hcl
      have hw0 : 0 ≤ w := hw v hvn (t2, w) hedge
      have := ih hvv
      linarith

theorem dinv_init (g : Graph) (s : Node) :
    DInvBase g s (fun v => if v = s then ((0 : ℚ) : Dist) else ⊤)
      (fun _ => none) [] [(0, s)] := by
  constructor
  · intro v q hq
    by_cases hv : v = s
    · rw [if_pos hv] at hq
      have hq0 : q = 0 := by exact_mod_cast hq.symm
      rw [hv, hq0]
      exact ⟨[s], IsPath.single⟩
    · rw [if_neg hv] at hq
      exact absurd hq (by simp)
  · intro e he
    rcases List.mem_singleton.mp he with rfl
    simp
  · intro v _ q hq
    by_cases hv : v = s
    · rw [if_pos hv] at hq
      have hq0 : q = 0 := by exact_mod_cast hq.symm
      rw [hv, hq0]
      exact List.mem_singleton.mpr rfl
    · rw [if_neg hv] at hq
      exact absurd hq (by simp)
  · intro e he
    rcases List.mem_singleton.mp he with rfl
    exact Or.inr rfl
  · intro v hv
    simp at hv
  · intro v u hvu
    simp at hvu
  · intro v hv
    simp at hv
  · exact List.nodup_nil
  · intro v hv
    simp at hv
  · intro v u hvu
    simp at hvu
  · rw [if_pos rfl]
  · exact Or.inr ⟨rfl, rfl⟩
  · intro _ v hv
    simp at hv

theorem dinv_skip (g : Graph) (s : Node) (dist : Node → Dist)
    (prev : Node → Option Node) (visited : List Node) (pq : List (ℚ × Node))
    (m : ℚ × Node) (hm : pq_min pq = some m) (hv : m.2 ∈ visited)
    (hinv : DInvBase g s dist prev visited pq) :
    DInvBase g s dist prev visited (pq.erase m) := by
  obtain ⟨a1, a2, a3, a4, a5, a6, a7, a8, a9, a10, a11, a12, a13⟩ := hinv
  constructor
  · exact a1
  · intro e he
    exact a2 e (List.mem_of_mem_erase he)
  · intro v hvv q hq
    have hne : (q, v) ≠ m := by
      intro hc
      rw [← hc] at hv
      exact hvv hv
    exact (List.mem_erase_of_ne hne).mpr (a3 v hvv q hq)
  · intro e he
    exact a4 e (List.mem_of_mem_erase he)
  · exact a5
  · exact a6
  · exact a7
  · exact a8
  · exact a9
  · exact a10
  · exact a11
  · left
    rcases a12 with h | ⟨hemp, _⟩
    · exact h
    · rw [hemp] at hv
      simp at hv
  · exact a13

theorem dinv_cons (g : Graph) (s : Node) (dist : Node → Dist)
    (prev : Node → Option Node) (visited : List Node) (pq : List (ℚ × Node))
    (m : ℚ × Node) (hm : pq_min pq = some m) (hv : m.2 ∉ visited)
    (hn : m.2 ∈ g.nodes) (hcl : g.Closed) (hs : s ∈ g.nodes)
    (hinv : DInvBase g s dist prev visited pq)
    (hoe : OptEdgesAll g visited dist) :
    DInvBase g s dist prev (m.2 :: visited) (pq.erase m) ∧
      dist m.2 = (m.1 : Dist) ∧ s ∈ m.2 :: visited := by
  have hmm : m ∈ pq := pq_min_mem pq m hm
  have hdm : dist m.2 = (m.1 : Dist) := by
    obtain ⟨q, hq, hqle⟩ := withtop_le_coe (hinv.pq_dist m hmm)
    have hwit := hinv.pq_witness m.2 hv q hq
    have := pq_min_le pq m hm (q, m.2) hwit
    have : q = m.1 := le_antisymm hqle this
    rw [hq, this]
  have hsin : s ∈ m.2 :: visited := by
    rcases hinv.start_case with h | ⟨hemp, hpq⟩
    · exact List.mem_cons_of_mem _ h
    · have : m = (0, s) := by
        rw [hpq, pq_min, Option.some.injEq] at hm
        exact hm.symm
      rw [this]
      exact List.mem_cons_self _ _
  refine ⟨?_, hdm, hsin⟩
  obtain ⟨a1, a2, a3, a4, a5, a6, a7, a8, a9, a10, a11, a12, a13⟩ := hinv
  constructor
  · exact a1
  · intro e he
    exact a2 e (List.mem_of_mem_erase he)
  · intro v hvv q hq
    have hv1 : v ∉ visited := fun hc => hvv (List.mem_cons_of_mem _ hc)
    have hv2 : v ≠ m.2 := fun hc => hvv (hc ▸ List.mem_cons_self _ _)
    have hne : (q, v) ≠ m := by
      intro hc
      exact hv2 (by rw [← hc])
    exact (List.mem_erase_of_ne hne).mpr (a3 v hv1 q hq)
  · intro e he
    exact a4 e (List.mem_of_mem_erase he)
  · intro v hvv hnone
    rcases List.mem_cons.mp hvv with rfl | hvv2
    · rcases a4 m hmm with h | h
      · exact absurd hnone h
      · exact h
    · exact a5 v hvv2 hnone
  · intro v u hvu
    obtain ⟨hu, w, hw, hd⟩ := a6 v u hvu
    exact ⟨List.mem_cons_of_mem _ hu, w, hw, hd⟩
  · intro v hvv
    rcases List.mem_cons.mp hvv with rfl | hvv2
    · exact ⟨m.1, hdm⟩
    · exact a7 v hvv2
  · exact List.nodup_cons.mpr ⟨hv, a8⟩
  · intro v hvv
    rcases List.mem_cons.mp hvv with rfl | hvv2
    · exact hn
    · exact a9 v hvv2
  · intro v u hvu hvv
    obtain ⟨hu, _, _, _⟩ := a6 v u hvu
    have hum : u ≠ m.2 := fun hc => hv (hc ▸ hu)
    rcases List.mem_cons.mp hvv with rfl | hvv2
    · rw [idxOf, if_pos rfl, idxOf, if_neg (fun hc => hum hc.symm)]
      omega
    · have hvm : v ≠ m.2 := fun hc => hv (hc ▸ hvv2)
      rw [idxOf, if_neg (fun hc => hvm hc.symm), idxOf, if_neg (fun hc => hum hc.symm)]
      have := a10 v u hvu hvv2
      omega
  · exact a11
  · exact Or.inl hsin
  · intro hwAll v hvv p c hp
    rcases List.mem_cons.mp hvv with rfl | hvv2
    · rw [hdm]
      have := pop_bound g s hcl hs hwAll dist prev visited pq
        ⟨a1, a2, a3, a4, a5, a6, a7, a8, a9, a10, a11, a12, a13⟩ hoe m hm p m.2 c hp hv
      exact_mod_cast this
    · exact a13 hwAll v hvv2 p c hp

theorem relax_all (g : Graph) (s current : Node) (d : ℚ) (visited : List Node)
    (hcv : current ∈ visited) (hsv : s ∈ visited) :
    ∀ (l : List (Node × ℚ)) (dist : Node → Dist) (prev : Node → Option Node)
      (pq : List (ℚ × Node)),
    (∀ e ∈ l, e ∈ g.adj current) →
    DInvBase g s dist prev visited pq →
    dist current = (d : Dist) →
    FrontierExc g current l visited dist →
    OptEdgesExc g current l visited dist →
    DInvBase g s (relaxList current d visited l dist prev pq).1
        (relaxList current d visited l dist prev pq).2.1 visited
        (relaxList current d visited l dist prev pq).2.2 ∧
      (relaxList current d visited l dist prev pq).1 current = (d : Dist) ∧
      FrontierExc g current [] visited (relaxList current d visited l dist prev pq).1 ∧
      OptEdgesExc g current [] visited (relaxList current d visited l dist prev pq).1 := by
  intro l
  induction l with
  | nil =>
    intro dist prev pq hsub hinv hdc hfr hoe
    rw [relaxList]
    exact ⟨hinv, hdc, hfr, hoe⟩
  | cons hd rest ih =>
    intro dist prev pq hsub hinv hdc hfr hoe
    match hd, hsub with
    | (nbr, w), hsub =>
      rw [relaxList]
      split_ifs with h1 h2
      · apply ih dist prev pq (fun e he => hsub e (List.mem_cons_of_mem _ he)) hinv hdc
        · intro v hv e he hev
          rcases hfr v hv e he hev with ⟨hveq, hel⟩ | hfin
          · rcases List.mem_cons.mp hel with heq | hel2
            · have he1 : e.1 = nbr := by rw [heq]
              exact absurd (he1 ▸ h1) hev
            · exact Or.inl ⟨hveq, hel2⟩
          · exact Or.inr hfin
        · intro hwAll v hv e he hev
          rcases hoe hwAll v hv e he hev with ⟨hveq, hel⟩ | hfin
          · rcases List.mem_cons.mp hel with heq | hel2
            · have he1 : e.1 = nbr := by rw [heq]
              exact absurd (he1 ▸ h1) hev
            · exact Or.inl ⟨hveq, hel2⟩
          · exact Or.inr hfin
      · -- improvement: update the three components and recurse
        have hcn : current ≠ nbr := fun hc => h1 (hc ▸ hcv)
        have hsn : s ≠ nbr := fun hc => h1 (hc ▸ hsv)
        have hdec : ∀ x, updD dist nbr ((d + w : ℚ) : Dist) x ≤ dist x := by
          intro x
          by_cases hx : x = nbr
          · rw [hx, updD_self]
            exact le_of_lt h2
          · rw [updD_ne _ _ _ _ hx]
        have hedge : (nbr, w) ∈ g.adj current := hsub (nbr, w) (List.mem_cons_self _ _)
        obtain ⟨pc, hpc⟩ := hinv.achieves current d hdc
        apply ih _ _ _ (fun e he => hsub e (List.mem_cons_of_mem _ he))
        · constructor
          · intro v q hq
            by_cases hv : v = nbr
            · rw [hv, updD_self] at hq
              have hq0 : q = d + w := by exact_mod_cast hq.symm
              rw [hv, hq0]
              exact ⟨pc ++ [nbr], IsPath.step hpc hedge⟩
            · rw [updD_ne _ _ _ _ hv] at hq
              exact hinv.achieves v q hq
          · intro e he
            rcases List.mem_cons.mp he with heq | he2
            · have he1 : e.1 = d + w := by rw [heq]
              have he2 : e.2 = nbr := by rw [heq]
              rw [he1, he2, updD_self]
            · exact le_trans (hdec e.2) (hinv.pq_dist e he2)
          · intro v hv q hq
            by_cases hvn : v = nbr
            · rw [hvn, updD_self] at hq
              have hq0 : q = d + w := by exact_mod_cast hq.symm
              rw [hvn, hq0]
              exact List.mem_cons_self _ _
            · rw [updD_ne _ _ _ _ hvn] at hq
              exact List.mem_cons_of_mem _ (hinv.pq_witness v hv q hq)
          · intro e he
            rcases List.mem_cons.mp he with heq | he2
            · left
              have he2 : e.2 = nbr := by rw [heq]
              rw [he2, updP_self]
              simp
            · by_cases hen : e.2 = nbr
              · left
                rw [hen, updP_self]
                simp
              · rw [updP_ne _ _ _ _ hen]
                exact hinv.pq_prev e he2
          · intro v hv hnone
            have hvn : v ≠ nbr := fun hc => h1 (hc ▸ hv)
            rw [updP_ne _ _ _ _ hvn] at hnone
            exact hinv.vis_prev_start v hv hnone
          · intro v u hvu
            by_cases hvn : v = nbr
            · rw [hvn, updP_self] at hvu
              obtain rfl : current = u := Option.some.inj hvu
              rw [hvn]
              refine ⟨hcv, w, hedge, ?_⟩
              rw [updD_self, updD_ne _ _ _ _ hcn, hdc]
              norm_cast
            · rw [updP_ne _ _ _ _ hvn] at hvu
              obtain ⟨hu, w2, hw2, hd2⟩ := hinv.prev_edge v u hvu
              have hun : u ≠ nbr := fun hc => h1 (hc ▸ hu)
              refine ⟨hu, w2, hw2, ?_⟩
              rw [updD_ne _ _ _ _ hvn, updD_ne _ _ _ _ hun]
              exact hd2
          · intro v hv
            have hvn : v ≠ nbr := fun hc => h1 (hc ▸ hv)
            rw [updD_ne _ _ _ _ hvn]
            exact hinv.vis_fin v hv
          · exact hinv.vis_nodup
          · exact hinv.vis_sub
          · intro v u hvu hv
            have hvn : v ≠ nbr := fun hc => h1 (hc ▸ hv)
            rw [updP_ne _ _ _ _ hvn] at hvu
            exact hinv.rank v u hvu hv
          · rw [updD_ne _ _ _ _ hsn]
            exact hinv.dist_start
          · exact Or.inl hsv
          · intro hwAll v hv p c hp
            have hvn : v ≠ nbr := fun hc => h1 (hc ▸ hv)
            rw [updD_ne _ _ _ _ hvn]
            exact hinv.opt_vis hwAll v hv p c hp
        · rw [updD_ne _ _ _ _ hcn]
          exact hdc
        · intro v hv e he hev
          rcases hfr v hv e he hev with ⟨hveq, hel⟩ | hfin
          · rcases List.mem_cons.mp hel with heq | hel2
            · right
              have he1 : e.1 = nbr := by rw [heq]
              rw [he1, updD_self]
              simp
            · exact Or.inl ⟨hveq, hel2⟩
          · right
            by_cases hen : e.1 = nbr
            · rw [hen, updD_self]
              simp
            · rw [updD_ne _ _ _ _ hen]
              exact hfin
        · intro hwAll v hv e he hev
          rcases hoe hwAll v hv e he hev with ⟨hveq, hel⟩ | hfin
          · rcases List.mem_cons.mp hel with heq | hel2
            · right
              have hvn2 : v ≠ nbr := fun hc => h1 (hc ▸ hv)
              have he1 : e.1 = nbr := by rw [heq]
              have he2w : e.2 = w := by rw [heq]
              rw [he1, he2w, updD_self, updD_ne _ _ _ _ hvn2, hveq, hdc]
              rw [show ((d + w : ℚ) : Dist) = (d : Dist) + (w : Dist) by norm_cast]
            · exact Or.inl ⟨hveq, hel2⟩
          · right
            have hvn2 : v ≠ nbr := fun hc => h1 (hc ▸ hv)
            rw [updD_ne _ _ _ _ hvn2]
            exact le_trans (hdec e.1) hfin
      · -- no improvement: distance already at most the candidate
        have hle : dist nbr ≤ ((d + w : ℚ) : Dist) := le_of_not_lt h2
        apply ih dist prev pq (fun e he => hsub e (List.mem_cons_of_mem _ he)) hinv hdc
        · intro v hv e he hev
          rcases hfr v hv e he hev with ⟨hveq, hel⟩ | hfin
          · rcases List.mem_cons.mp hel with heq | hel2
            · right
              have he1 : e.1 = nbr := by rw [heq]
              rw [he1]
              intro hc
              rw [hc] at hle
              exact absurd hle (by simp)
            · exact Or.inl ⟨hveq, hel2⟩
          · exact Or.inr hfin
        · intro hwAll v hv e he hev
          rcases hoe hwAll v hv e he hev with ⟨hveq, hel⟩ | hfin
          · rcases List.mem_cons.mp hel with heq | hel2
            · right
              have he1 : e.1 = nbr := by rw [heq]
              have he2w : e.2 = w := by rw [heq]
              rw [he1, he2w, hveq, hdc]
              calc dist nbr ≤ ((d + w : ℚ) : Dist) := hle
              _ = (d : Dist) + (w : Dist) := by norm_cast
            · exact Or.inl ⟨hveq, hel2⟩
          · exact Or.inr hfin

theorem dloop_eq_none (g : Graph) (endN : Node) (dist : Node → Dist)
    (prev : Node → Option Node) (visited : List Node) (pq : List (ℚ × Node))
    (hpq : ∀ e ∈ pq, e.2 ∈ g.nodes) (hcl : g.Closed) (hm : pq_min pq = none) :
    dloop g endN dist prev visited pq hpq hcl = (dist, prev) := by
  rw [dloop.eq_def]
  split
  · rfl
  · rename_i m hm2
    simp [hm] at hm2

theorem dloop_eq_skip (g : Graph) (endN : Node) (dist : Node → Dist)
    (prev : Node → Option Node) (visited : List Node) (pq : List (ℚ × Node))
    (hpq : ∀ e ∈ pq, e.2 ∈ g.nodes) (hcl : g.Closed) (m : ℚ × Node)
    (hm : pq_min pq = some m) (hv : m.2 ∈ visited) :
    dloop g endN dist prev visited pq hpq hcl =
      dloop g endN dist prev visited (pq.erase m)
        (fun e he => hpq e (List.mem_of_mem_erase he)) hcl := by
  rw [dloop.eq_def]
  split
  · rename_i hm2
    simp [hm] at hm2
  · rename_i m2 hm2
    rw [hm] at hm2
    obtain rfl : m = m2 := Option.some.inj hm2
    rw [dif_pos hv]

theorem dloop_eq_break (g : Graph) (endN : Node) (dist : Node → Dist)
    (prev : Node → Option Node) (visited : List Node) (pq : List (ℚ × Node))
    (hpq : ∀ e ∈ pq, e.2 ∈ g.nodes) (hcl : g.Closed) (m : ℚ × Node)
    (hm : pq_min pq = some m) (hv : m.2 ∉ visited) (hend : m.2 = endN) :
    dloop g endN dist prev visited pq hpq hcl = (dist, prev) := by
  rw [dloop.eq_def]
  split
  · rename_i hm2
    simp [hm] at hm2
  · rename_i m2 hm2
    rw [hm] at hm2
    obtain rfl : m = m2 := Option.some.inj hm2
    rw [dif_neg hv, if_pos hend]

theorem dloop_eq_fresh (g : Graph) (endN : Node) (dist : Node → Dist)
    (prev : Node → Option Node) (visited : List Node) (pq : List (ℚ × Node))
    (hpq : ∀ e ∈ pq, e.2 ∈ g.nodes) (hcl : g.Closed) (m : ℚ × Node)
    (hm : pq_min pq = some m) (hv : m.2 ∉ visited) (hend : m.2 ≠ endN) :
    dloop g endN dist prev visited pq hpq hcl =
      dloop g endN
        (relaxList m.2 m.1 (m.2 :: visited) (g.adj m.2) dist prev (pq.erase m)).1
        (relaxList m.2 m.1 (m.2 :: visited) (g.adj m.2) dist prev (pq.erase m)).2.1
        (m.2 :: visited)
        (relaxList m.2 m.1 (m.2 :: visited) (g.adj m.2) dist prev (pq.erase m)).2.2
        (by
          intro e he
          rcases relaxList_pq_sub m.2 m.1 (m.2 :: visited) (g.adj m.2) dist prev
            (pq.erase m) e he with hin | ⟨w, hw⟩
          · exact hpq e (List.mem_of_mem_erase hin)
          · exact hcl m.2 (hpq m (pq_min_mem pq m hm)) (e.2, w) hw)
        hcl := by
  rw [dloop.eq_def]
  split
  · rename_i hm2
    simp [hm] at hm2
  · rename_i m2 hm2
    rw [hm] at hm2
    obtain rfl : m = m2 := Option.some.inj hm2
    rw [dif_neg hv, if_neg hend]

theorem frontier_of_exc_nil (g : Graph) (cur : Node) (visited : List Node)
    (dist : Node → Dist) (h : FrontierExc g cur [] visited dist) :
    FrontierAll g visited dist := by
  intro v hv e he hev
  rcases h v hv e he hev with ⟨_, hel⟩ | hfin
  · simp at hel
  · exact hfin

theorem optedges_of_exc_nil (g : Graph) (cur : Node) (visited : List Node)
    (dist : Node → Dist) (h : OptEdgesExc g cur [] visited dist) :
    OptEdgesAll g visited dist := by
  intro hw v hv e he hev
  rcases h hw v hv e he hev with ⟨_, hel⟩ | hfin
  · simp at hel
  · exact hfin

theorem dloop_post (g : Graph) (s endN : Node) (hs : s ∈ g.nodes) :
    ∀ (dist : Node → Dist) (prev : Node → Option Node) (visited : List Node)
      (pq : List (ℚ × Node)) (hpq : ∀ e ∈ pq, e.2 ∈ g.nodes) (hcl : g.Closed),
      DInvBase g s dist prev visited pq → FrontierAll g visited dist →
      OptEdgesAll g visited dist →
      DPost g s endN (dloop g endN dist prev visited pq hpq hcl) := by
  refine dloop.induct g endN
    (fun dist prev visited pq hpq hcl =>
      DInvBase g s dist prev visited pq → FrontierAll g visited dist →
      OptEdgesAll g visited dist →
      DPost g s endN (dloop g endN dist prev visited pq hpq hcl)) ?_ ?_ ?_ ?_
  · intro dist prev visited pq hpq hcl hm hinv hfr hoe
    rw [dloop_eq_none g endN dist prev visited pq hpq hcl hm]
    have hpqnil : pq = [] := pq_min_none pq hm
    have htop : ∀ v, v ∉ visited → dist v = ⊤ := by
      intro v hv
      by_contra hne
      obtain ⟨q, hq⟩ : ∃ q : ℚ, dist v = (q : Dist) := by
        cases hd : dist v with
        | none => exact absurd hd hne
        | some q => exact ⟨q, rfl⟩
      have := hinv.pq_witness v hv q hq
      rw [hpqnil] at this
      simp at this
    refine ⟨visited, hinv.achieves, hinv.prev_edge, hinv.vis_prev_start, hinv.rank,
      hinv.vis_nodup, hinv.vis_sub, hinv.vis_fin, hinv.dist_start, hinv.opt_vis,
      Or.inr ⟨?_, htop, ?_⟩⟩
    · rcases hinv.start_case with h | ⟨_, hpq0⟩
      · exact h
      · rw [hpqnil] at hpq0
        exact absurd hpq0 (by simp)
    · intro v hv e he
      by_contra hev
      exact (hfr v hv e he hev) (htop e.1 hev)
  · intro dist prev visited pq hpq hcl m hm hv ih hinv hfr hoe
    rw [dloop_eq_skip g endN dist prev visited pq hpq hcl m hm hv]
    exact ih (dinv_skip g s dist prev visited pq m hm hv hinv) hfr hoe
  · intro dist prev visited pq hpq hcl m hm hv hend hinv hfr hoe
    rw [dloop_eq_break g endN dist prev visited pq hpq hcl m hm hv hend]
    have hn : m.2 ∈ g.nodes := hpq m (pq_min_mem pq m hm)
    obtain ⟨hbase, hdm, hsin⟩ :=
      dinv_cons g s dist prev visited pq m hm hv hn hcl hs hinv hoe
    refine ⟨m.2 :: visited, hbase.achieves, hbase.prev_edge, hbase.vis_prev_start,
      hbase.rank, hbase.vis_nodup, hbase.vis_sub, hbase.vis_fin, hbase.dist_start,
      hbase.opt_vis, Or.inl ?_⟩
    rw [← hend]
    exact List.mem_cons_self _ _
  · intro dist prev visited pq hpq hcl m hm hv hend ih hinv hfr hoe
    rw [dloop_eq_fresh g endN dist prev visited pq hpq hcl m hm hv hend]
    have hn : m.2 ∈ g.nodes := hpq m (pq_min_mem pq m hm)
    obtain ⟨hbase, hdm, hsin⟩ :=
      dinv_cons g s dist prev visited pq m hm hv hn hcl hs hinv hoe
    have hcv : m.2 ∈ m.2 :: visited := List.mem_cons_self _ _
    have hfrX : FrontierExc g m.2 (g.adj m.2) (m.2 :: visited) dist := by
      intro v hvv e he hev
      rcases List.mem_cons.mp hvv with rfl | hv2
      · exact Or.inl ⟨rfl, he⟩
      · right
        apply hfr v hv2 e he
        intro hc
        exact hev (List.mem_cons_of_mem _ hc)
    have hoeX : OptEdgesExc g m.2 (g.adj m.2) (m.2 :: visited) dist := by
      intro hw v hvv e he hev
      rcases List.mem_cons.mp hvv with rfl | hv2
      · exact Or.inl ⟨rfl, he⟩
      · right
        apply hoe hw v hv2 e he
        intro hc
        exact hev (List.mem_cons_of_mem _ hc)
    obtain ⟨hbase2, hdc2, hfr2, hoe2⟩ := relax_all g s m.2 m.1 (m.2 :: visited)
      hcv hsin (g.adj m.2) dist prev (pq.erase m) (fun e he => he) hbase hdm hfrX hoeX
    exact ih hbase2 (frontier_of_exc_nil g m.2 (m.2 :: visited) _ hfr2)
      (optedges_of_exc_nil g m.2 (m.2 :: visited) _ hoe2)

theorem idxOf_lt_length (a : Node) (l : List Node) (h : a ∈ l) :
    idxOf a l < l.length := by
  induction l with
  | nil => simp at h
  | cons x xs ih =>
    rw [idxOf]
    by_cases hx : x = a
    · rw [if_pos hx]
      simp
    · rw [if_neg hx]
      rcases List.mem_cons.mp h with rfl | h2
      · exact absurd rfl hx
      · simpa using ih h2

theorem nodup_sub_length_le (l1 l2 : List Node) (hn : l1.Nodup) (hsub : ∀ x ∈ l1, x ∈ l2) :
    l1.length ≤ l2.length := by
  have h1 : l1.toFinset.card = l1.length := List.toFinset_card_of_nodup hn
  have h2 : l1.toFinset ⊆ l2.toFinset := by
    intro x hx
    rw [List.mem_toFinset] at hx ⊢
    exact hsub x hx
  have h3 : l1.toFinset.card ≤ l2.toFinset.card := Finset.card_le_card h2
  have h4 : l2.toFinset.card ≤ l2.length := l2.toFinset_card_le
  omega

theorem reach_in_visited (g : Graph) (s : Node) (visited : List Node)
    (hsv : s ∈ visited) (hclosure : ∀ v ∈ visited, ∀ ed ∈ g.adj v, ed.1 ∈ visited) :
    ∀ {p : List Node} {t : Node} {c : ℚ}, IsPath g s p t c → t ∈ visited := by
  intro p t c hp
  induction hp with
  | single => exact hsv
  | step hp2 hedge ih => exact hclosure _ ih _ hedge

theorem chain_spec (g : Graph) (s : Node) (dist : Node → Dist)
    (prev : Node → Option Node) (visited : List Node)
    (hpe : ∀ v u, prev v = some u → u ∈ visited ∧
      ∃ w : ℚ, (v, w) ∈ g.adj u ∧ dist v = dist u + (w : Dist))
    (hps : ∀ v ∈ visited, prev v = none → v = s)
    (hrk : ∀ v u, prev v = some u → v ∈ visited →
      idxOf v visited < idxOf u visited)
    (hds : dist s = ((0 : ℚ) : Dist)) :
    ∀ (fuel : ℕ) (v : Node), v ∈ visited →
      visited.length - idxOf v visited ≤ fuel → ∀ acc,
      ∃ (pfx : List Node) (c : ℚ), chain prev fuel v acc = some (pfx ++ acc) ∧
        IsPath g s pfx v c ∧ dist v = (c : Dist) := by
  intro fuel
  induction fuel with
  | zero =>
    intro v hv hle acc
    have := idxOf_lt_length v visited hv
    omega
  | succ f ihf =>
    intro v hv hle acc
    cases hpv : prev v with
    | none =>
      have hvs : v = s := hps v hv hpv
      refine ⟨[v], 0, ?_, ?_, ?_⟩
      · rw [chain, hpv]
        rfl
      · rw [hvs]
        exact IsPath.single
      · rw [hvs, hds]
    | some u =>
      obtain ⟨hu, w, hw, hdv⟩ := hpe v u hpv
      have hrank := hrk v u hpv hv
      have hub := idxOf_lt_length u visited hu
      have hle2 : visited.length - idxOf u visited ≤ f := by omega
      obtain ⟨pfx, c, hch, hip, hdu⟩ := ihf u hu hle2 (v :: acc)
      refine ⟨pfx ++ [v], c + w, ?_, IsPath.step hip hw, ?_⟩
      · rw [chain, hpv]
        dsimp only
        rw [hch, List.append_assoc]
        rfl
      · rw [hdv, hdu]
        norm_cast

theorem dijkstra_spec (g : Graph) (s t : Node) (hcl : g.Closed) (hs : s ∈ g.nodes) :
    (∀ p, (dijkstra g s t).1 = some p →
      ∃ c : ℚ, (dijkstra g s t).2 = (c : Dist) ∧ IsPath g s p t c ∧
        (AllNonneg g → ∀ p2 (c2 : ℚ), IsPath g s p2 t c2 → c ≤ c2)) ∧
    ((dijkstra g s t).1 = none ↔ ¬ Reach g s t) ∧
    ((dijkstra g s t).1 = none → (dijkstra g s t).2 = ⊤) := by
  have hpq0 : ∀ x ∈ [((0 : ℚ), s)], x.2 ∈ g.nodes := by
    intro x hx
    rcases List.mem_singleton.mp hx with rfl
    exact hs
  have hfr0 : FrontierAll g [] (fun v => if v = s then ((0 : ℚ) : Dist) else ⊤) := by
    intro v hv
    simp at hv
  have hoe0 : OptEdgesAll g [] (fun v => if v = s then ((0 : ℚ) : Dist) else ⊤) := by
    intro _ v hv
    simp at hv
  obtain ⟨visited, f1, f2, f3, f4, f5, f6, f7, f8, f9, f10⟩ :=
    dloop_post g s t hs (fun v => if v = s then ((0 : ℚ) : Dist) else ⊤)
      (fun _ => none) [] [(0, s)] hpq0 hcl (dinv_init g s) hfr0 hoe0
  set res := dloop g t (fun v => if v = s then ((0 : ℚ) : Dist) else ⊤)
    (fun _ => none) [] [(0, s)] hpq0 hcl with hres
  have hval : dijkstra g s t =
      (if res.2 t = none ∧ t ≠ s then ((none : Option (List Node)), (⊤ : Dist))
       else match chain res.2 (g.nodes.length + 1) t [] with
         | some path => (some path, res.1 t)
         | none => (none, ⊤)) := by
    rw [dijkstra, dif_pos (⟨hcl, hs⟩ : g.Closed ∧ s ∈ g.nodes)]
  by_cases hvis : t ∈ visited
  · -- goal settled: the guard fails and the chain reconstructs a path
    have hguard : ¬(res.2 t = none ∧ t ≠ s) := by
      intro ⟨hnone, hts⟩
      exact hts (f3 t hvis hnone)
    have hlen : visited.length ≤ g.nodes.length :=
      nodup_sub_length_le visited g.nodes f5 f6
    have hfuel : visited.length - idxOf t visited ≤ g.nodes.length + 1 := by omega
    obtain ⟨pfx, c, hch, hip, hdt⟩ := chain_spec g s res.1 res.2 visited f2 f3 f4 f8
      (g.nodes.length + 1) t hvis hfuel []
    rw [List.append_nil] at hch
    have hvalue : dijkstra g s t = (some pfx, res.1 t) := by
      rw [hval, if_neg hguard, hch]
    refine ⟨?_, ?_, ?_⟩
    · intro p hp
      rw [hvalue] at hp
      have hp2 : p = pfx := by
        rw [Option.some.injEq] at hp
        exact hp.symm
      subst hp2
      refine ⟨c, ?_, hip, ?_⟩
      · rw [hvalue]
        exact hdt
      · intro hw p2 c2 hp2
        have := f9 hw t hvis p2 c2 hp2
        rw [hdt] at this
        exact_mod_cast this
    · rw [hvalue]
      constructor
      · intro hc
        simp at hc
      · intro hc
        exact absurd ⟨pfx, c, hip⟩ hc
    · intro hc
      rw [hvalue] at hc
      simp at hc
  · -- goal never settled: no path exists and the guard fires
    rcases f10 with hin | ⟨hsv, htop, hclosure⟩
    · exact absurd hin hvis
    have hdt : res.1 t = ⊤ := htop t hvis
    have hpn : res.2 t = none := by
      cases hpt : res.2 t with
      | none => rfl
      | some u =>
        obtain ⟨hu, w, hw, hd⟩ := f2 t u hpt
        obtain ⟨q, hq⟩ := f7 u hu
        rw [hdt, hq] at hd
        exact absurd hd.symm (by simp)
    have hts : t ≠ s := fun hc => hvis (hc ▸ hsv)
    have hvalue : dijkstra g s t = (none, ⊤) := by
      rw [hval, if_pos ⟨hpn, hts⟩]
    have hnr : ¬ Reach g s t := by
      intro ⟨p, c, hp⟩
      exact hvis (reach_in_visited g s visited hsv hclosure hp)
    refine ⟨?_, ?_, ?_⟩
    · intro p hp
      rw [hvalue] at hp
      simp at hp
    · rw [hvalue]
      simpa using hnr
    · intro _
      rw [hvalue]

theorem reach_step (g : Graph) (s u v : Node) (w : ℚ) (hr : Reach g s u)
    (he : (v, w) ∈ g.adj u) : Reach g s v := by
  obtain ⟨p, c, hp⟩ := hr
  exact ⟨p ++ [v], c + w, IsPath.step hp he⟩

theorem select_min3_mem (e : ℚ × ℚ × Node) (l : List (ℚ × ℚ × Node)) :
    select_min3 e l = e ∨ select_min3 e l ∈ l := by
  induction l generalizing e with
  | nil => exact Or.inl rfl
  | cons x xs ih =>
    rw [select_min3]
    split_ifs with hx
    · rcases ih x with h | h
      · exact Or.inr (by rw [h]; exact List.mem_cons_self x xs)
      · exact Or.inr (List.mem_cons_of_mem x h)
    · rcases ih e with h | h
      · exact Or.inl h
      · exact Or.inr (List.mem_cons_of_mem x h)

theorem pq_min3_mem (pq : List (ℚ × ℚ × Node)) (m : ℚ × ℚ × Node)
    (hm : pq_min3 pq = some m) : m ∈ pq := by
  match pq, hm with
  | x :: xs, hm =>
    rw [pq_min3, Option.some.injEq] at hm
    rcases select_min3_mem x xs with h | h
    · rw [← hm, h]
      exact List.mem_cons_self x xs
    · exact hm ▸ List.mem_cons_of_mem x h

theorem astar_relax_os_sub (current : Node) (hfun : Node → ℚ) :
    ∀ (adjl : List (Node × ℚ)) (gs fs : Node → Dist) (cf : Node → Option Node)
      (os : List (ℚ × ℚ × Node)) (hash : List Node) (e : ℚ × ℚ × Node),
      e ∈ (astar_relax current hfun adjl gs fs cf os hash).2.2.2.1 →
      e ∈ os ∨ ∃ w, (e.2.2, w) ∈ adjl := by
  intro adjl
  induction adjl with
  | nil =>
    intro gs fs cf os hash e he
    exact Or.inl he
  | cons hd rest ih =>
    intro gs fs cf os hash e he
    match hd with
    | (nbr, w) =>
      rw [astar_relax] at he
      rcases hgc : gs current with _ | gq
      · rw [hgc] at he
        rcases ih _ _ _ _ _ e he with h | ⟨w2, hw2⟩
        · exact Or.inl h
        · exact Or.inr ⟨w2, List.mem_cons_of_mem _ hw2⟩
      · rw [hgc] at he
        dsimp only at he
        split_ifs at he with h1 h2
        · rcases ih _ _ _ _ _ e he with h | ⟨w2, hw2⟩
          · exact Or.inl h
          · exact Or.inr ⟨w2, List.mem_cons_of_mem _ hw2⟩
        · rcases ih _ _ _ _ _ e he with h | ⟨w2, hw2⟩
          · rcases List.mem_cons.mp h with heq | h3
            · have : e.2.2 = nbr := by rw [heq]
              exact Or.inr ⟨w, this ▸ List.mem_cons_self _ _⟩
            · exact Or.inl h3
          · exact Or.inr ⟨w2, List.mem_cons_of_mem _ hw2⟩
        · rcases ih _ _ _ _ _ e he with h | ⟨w2, hw2⟩
          · exact Or.inl h
          · exact Or.inr ⟨w2, List.mem_cons_of_mem _ hw2⟩

theorem astar_relax_hashprop (current : Node) (hfun : Node → ℚ) (s : Node) :
    ∀ (adjl : List (Node × ℚ)) (gs fs : Node → Dist) (cf : Node → Option Node)
      (os : List (ℚ × ℚ × Node)) (hash : List Node),
      (∀ v ∈ hash, v = s ∨ cf v ≠ none) →
      ∀ v ∈ (astar_relax current hfun adjl gs fs cf os hash).2.2.2.2,
        v = s ∨ (astar_relax current hfun adjl gs fs cf os hash).2.2.1 v ≠ none := by
  intro adjl
  induction adjl with
  | nil =>
    intro gs fs cf os hash hprop v hv
    exact hprop v hv
  | cons hd rest ih =>
    intro gs fs cf os hash hprop v hv
    match hd with
    | (nbr, w) =>
      rw [astar_relax] at hv ⊢
      rcases hgc : gs current with _ | gq
      · rw [hgc] at hv
        exact ih _ _ _ _ _ hprop v hv
      · rw [hgc] at hv
        dsimp only at hv ⊢
        split_ifs at hv ⊢ with h1 h2
        · refine ih _ _ _ _ _ ?_ v hv
          intro x hx
          rcases hprop x hx with hxs | hxn
          · exact Or.inl hxs
          · right
            by_cases hxn2 : x = nbr
            · rw [hxn2, updP_self]
              simp
            · rw [updP_ne _ _ _ _ hxn2]
              exact hxn
        · refine ih _ _ _ _ _ ?_ v hv
          intro x hx
          rcases List.mem_cons.mp hx with rfl | hx2
          · right
            rw [updP_self]
            simp
          · rcases hprop x hx2 with hxs | hxn
            · exact Or.inl hxs
            · right
              by_cases hxn2 : x = nbr
              · rw [hxn2, updP_self]
                simp
              · rw [updP_ne _ _ _ _ hxn2]
                exact hxn
        · exact ih _ _ _ _ _ hprop v hv

theorem astar_chain_shape (cf : Node → Option Node) (s : Node) :
    ∀ (fuel : ℕ) (current : Node) (acc l : List Node),
      astar_chain cf s fuel current acc = some l →
      (l = s :: acc ∧ cf current = none) ∨
        ∃ mid, l = s :: (mid ++ current :: acc) := by
  intro fuel
  induction fuel with
  | zero =>
    intro current acc l hl
    rw [astar_chain.eq_def] at hl
    dsimp only at hl
    cases hc : cf current with
    | none =>
      rw [hc] at hl
      dsimp only at hl
      rw [Option.some.injEq] at hl
      exact Or.inl ⟨hl.symm, rfl⟩
    | some nxt =>
      rw [hc] at hl
      dsimp only at hl
      exact absurd hl (by simp)
  | succ f ih =>
    intro current acc l hl
    rw [astar_chain.eq_def] at hl
    dsimp only at hl
    cases hc : cf current with
    | none =>
      rw [hc] at hl
      dsimp only at hl
      rw [Option.some.injEq] at hl
      exact Or.inl ⟨hl.symm, rfl⟩
    | some nxt =>
      rw [hc] at hl
      dsimp only at hl
      rcases ih nxt (current :: acc) l hl with ⟨hleq, _⟩ | ⟨mid, hleq⟩
      · exact Or.inr ⟨[], by rw [hleq]; rfl⟩
      · refine Or.inr ⟨mid ++ [nxt], ?_⟩
        rw [hleq, List.append_assoc]
        rfl

theorem astar_loop_spec (g : Graph) (endN s : Node) (hfun : Node → ℚ) :
    ∀ (fuel : ℕ) (gs fs : Node → Dist) (cf : Node → Option Node)
      (os : List (ℚ × ℚ × Node)) (hash : List Node),
      (∀ e ∈ os, Reach g s e.2.2) →
      (∀ v ∈ hash, v = s ∨ cf v ≠ none) →
      ∀ r, astar_loop g endN s hfun fuel gs fs cf os hash = some r →
        (r.1 = none ∧ r.2 = ⊤) ∨
          (Reach g s endN ∧
            ∃ p, r.1 = some p ∧ p.head? = some s ∧ p.getLast? = some endN) := by
  intro fuel
  induction fuel with
  | zero =>
    intro gs fs cf os hash hos hhash r hr
    rw [astar_loop] at hr
    exact absurd hr (by simp)
  | succ f ih =>
    intro gs fs cf os hash hos hhash r hr
    rw [astar_loop] at hr
    cases hm : pq_min3 os with
    | none =>
      rw [hm] at hr
      rw [Option.some.injEq] at hr
      exact Or.inl (by rw [← hr]; exact ⟨rfl, rfl⟩)
    | some m =>
      rw [hm] at hr
      dsimp only at hr
      have hrm : Reach g s m.2.2 := hos m (pq_min3_mem os m hm)
      split_ifs at hr with h1 h2
      · -- the goal was popped: reconstruct
        have hre : Reach g s endN := h2 ▸ hrm
        cases hch : astar_chain cf s f m.2.2 [] with
        | none =>
          rw [hch] at hr
          exact absurd hr (by simp)
        | some path =>
          rw [hch] at hr
          rw [Option.some.injEq] at hr
          refine Or.inr ⟨hre, path, by rw [← hr], ?_, ?_⟩
          · rcases astar_chain_shape cf s f m.2.2 [] path hch with ⟨hleq, _⟩ | ⟨mid, hleq⟩
            · rw [hleq]
              rfl
            · rw [hleq]
              rfl
          · rcases astar_chain_shape cf s f m.2.2 [] path hch with ⟨hleq, hcf⟩ | ⟨mid, hleq⟩
            · have hms : m.2.2 = s := by
                rcases hhash m.2.2 h1 with h | h
                · exact h
                · exact absurd hcf h
              rw [hleq, ← h2, hms]
              rfl
            · rw [hleq, ← h2]
              rw [show s :: (mid ++ [m.2.2]) = (s :: mid) ++ [m.2.2] from rfl]
              exact List.getLast?_concat _
      · exact ih _ _ _ _ _
          (by
            intro e he
            rcases astar_relax_os_sub m.2.2 hfun (g.adj m.2.2) gs fs cf (os.erase m)
              (hash.erase m.2.2) e he with h | ⟨w, hw⟩
            · exact hos e (List.mem_of_mem_erase h)
            · exact reach_step g s m.2.2 e.2.2 w hrm hw)
          (astar_relax_hashprop m.2.2 hfun s (g.adj m.2.2) gs fs cf (os.erase m)
            (hash.erase m.2.2)
            (fun v hv => hhash v (List.mem_of_mem_erase hv)))
          r hr
      · exact ih gs fs cf (os.erase m) hash
          (fun e he => hos e (List.mem_of_mem_erase he)) hhash r hr

theorem astar_spec (g : Graph) (s endN : Node) (P_grid V_grid : List ℚ)
    (heuristic : String) (rlog rsqrt : ℚ → ℚ) (fuel : ℕ)
    (r : Option (List Node) × Dist)
    (hr : astar g s endN P_grid V_grid heuristic rlog rsqrt fuel = some r) :
    (r.1 = none ∧ r.2 = ⊤) ∨
      (Reach g s endN ∧
        ∃ p, r.1 = some p ∧ p.head? = some s ∧ p.getLast? = some endN) := by
  rw [astar] at hr
  refine astar_loop_spec g endN s _ fuel _ _ _ _ _ ?_ ?_ r hr
  · intro e he
    rcases List.mem_singleton.mp he with rfl
    exact ⟨[s], 0, IsPath.single⟩
  · intro v hv
    rcases List.mem_singleton.mp hv with rfl
    exact Or.inl rfl

theorem build_graph_nodes_mem (rlog : ℚ → ℚ) (P_grid V_grid : List ℚ)
    (ad : Bool) (t : String) (c : Option Constraints) (v : Node) :
    v ∈ (build_graph rlog P_grid V_grid ad t c).nodes ↔
      v.1 < P_grid.length ∧ v.2 < P_grid.length := by
  constructor
  · intro h
    simp only [build_graph, List.mem_flatMap, List.mem_map, List.mem_range] at h
    obtain ⟨i, hi, j, hj, hv⟩ := h
    rw [← hv]
    exact ⟨hi, hj⟩
  · intro h
    simp only [build_graph, List.mem_flatMap, List.mem_map, List.mem_range]
    exact ⟨v.1, h.1, v.2, h.2, rfl⟩

theorem build_graph_closed (rlog : ℚ → ℚ) (P_grid V_grid : List ℚ)
    (ad : Bool) (t : String) (c : Option Constraints) :
    (build_graph rlog P_grid V_grid ad t c).Closed := by
  intro v hv p hp
  rw [build_graph_nodes_mem]
  have h := build_adj_mem_elim rlog P_grid V_grid ad t c v.1 v.2 p.1 p.2 hp
  exact ⟨h.2.2.1, h.2.2.2.1⟩

theorem build_adj_oob (rlog : ℚ → ℚ) (P_grid V_grid : List ℚ) (ad : Bool)
    (t : String) (c : Option Constraints) (v : Node)
    (hv : ¬(v.1 < P_grid.length ∧ v.2 < P_grid.length)) :
    build_adj rlog P_grid V_grid ad t c v = [] := by
  rw [build_adj, if_neg hv]

theorem reach_no_edges (g : Graph) (h : ∀ v, g.adj v = []) (s t : Node)
    (hr : Reach g s t) : t = s := by
  obtain ⟨p, c, hp⟩ := hr
  induction hp with
  | single => rfl
  | step hp he ih =>
    rename_i v _ w _ _
    rw [h v] at he
    exact absurd he (List.not_mem_nil _)

theorem fop_snap_lt (P V : ℚ) (gsz : ℕ) (hgs : 0 < gsz) :
    (fop_snap_node P V gsz).1 < gsz ∧ (fop_snap_node P V gsz).2 < gsz := by
  have hlen1 : ((create_grid 1 10 1 10 gsz).1.map (fun x => |x - P|)).length = gsz := by
    rw [List.length_map]
    exact linspace_length 1 10 gsz
  have hlen2 : ((create_grid 1 10 1 10 gsz).2.map (fun x => |x - V|)).length = gsz := by
    rw [List.length_map]
    exact linspace_length 1 10 gsz
  constructor
  · have := argmin_lt_length ((create_grid 1 10 1 10 gsz).1.map (fun x => |x - P|))
      (by rw [← List.length_pos_iff_ne_nil, hlen1]; exact hgs)
    rw [hlen1] at this
    exact this
  · have := argmin_lt_length ((create_grid 1 10 1 10 gsz).2.map (fun x => |x - V|))
      (by rw [← List.length_pos_iff_ne_nil, hlen2]; exact hgs)
    rw [hlen2] at this
    exact this

theorem dijkstra_self (g : Graph) (v : Node) (hcl : g.Closed) (hv : v ∈ g.nodes) :
    dijkstra g v v = (some [v], ((0 : ℚ) : Dist)) := by
  rw [dijkstra, dif_pos (⟨hcl, hv⟩ : g.Closed ∧ v ∈ g.nodes)]
  dsimp only
  rw [dloop_eq_break g v _ _ [] [(0, v)] _ hcl (0, v) rfl (List.not_mem_nil _) rfl]
  rw [if_neg (by simp)]
  rw [chain]
  dsimp only
  rw [if_pos rfl]

theorem astar_self (g : Graph) (v : Node) (P_grid V_grid : List ℚ)
    (heuristic : String) (rlog rsqrt : ℚ → ℚ) (f : ℕ) :
    astar g v v P_grid V_grid heuristic rlog rsqrt (f + 1) =
      some (some [v], ((0 : ℚ) : Dist)) := by
  rw [astar]
  dsimp only
  rw [astar_loop]
  dsimp only [pq_min3, select_min3]
  rw [if_neg (not_not_intro (List.mem_singleton.mpr rfl))]
  rw [if_pos rfl]
  rw [astar_chain.eq_def]
  dsimp only
  rw [if_pos rfl]
  cases f with
  | zero => rfl
  | succ f2 => rfl

theorem cew_min_entropy_eq (rlog : ℚ → ℚ) (P1 V1 P2 V2 : ℚ) :
    calculate_edge_weight rlog P1 V1 P2 V2 "min_entropy" =
      (if 0 < calculate_entropy_change rlog P1 V1 P2 V2 then
        calculate_entropy_change rlog P1 V1 P2 V2 else 1/100) := by
  rw [calculate_edge_weight]
  rw [if_neg (by decide), if_pos (by decide)]
  by_cases hdS : 0 < calculate_entropy_change rlog P1 V1 P2 V2
  · rw [if_pos hdS, if_pos hdS, abs_of_pos hdS]
  · rw [if_neg hdS, if_neg hdS]

theorem cew_min_entropy_pos (rlog : ℚ → ℚ) (P1 V1 P2 V2 : ℚ) :
    0 < calculate_edge_weight rlog P1 V1 P2 V2 "min_entropy" := by
  rw [cew_min_entropy_eq]
  by_cases hdS : 0 < calculate_entropy_change rlog P1 V1 P2 V2
  · rwa [if_pos hdS]
  · rw [if_neg hdS]
    norm_num

theorem build_graph_min_entropy_nonneg (rlog : ℚ → ℚ) (P_grid V_grid : List ℚ)
    (ad : Bool) (cons : Option Constraints) :
    AllNonneg (build_graph rlog P_grid V_grid ad "min_entropy" cons) := by
  intro v hv p hp
  obtain ⟨_, _, _, _, _, hw⟩ := build_adj_mem_elim rlog P_grid V_grid
    ad "min_entropy" cons v.1 v.2 p.1 p.2 hp
  rw [hw]
  exact le_of_lt (cew_min_entropy_pos rlog _ _ _ _)

/-- C6: the state-model functions degrade degenerate inputs to 0 instead of
failing: `calculate_temperature`, `calculate_pressure` and `calculate_volume`
return 0 when their divisor is zero, and `calculate_entropy_change` returns 0
whenever any of `V1, V2, T1, T2` is nonpositive.  All four are total Lean
functions, so on every input they return a rational and cannot raise. -/
theorem state_model_degenerate_guards :
    (∀ P V mol : ℚ, mol * R = 0 → calculate_temperature P V mol = 0) ∧
    (∀ T V mol : ℚ, V = 0 → calculate_pressure T V mol = 0) ∧
    (∀ T P mol : ℚ, P = 0 → calculate_volume T P mol = 0) ∧
    (∀ (rlog : ℚ → ℚ) (P1 V1 P2 V2 : ℚ) (gas_type : String) (mol : ℚ),
      (V1 ≤ 0 ∨ V2 ≤ 0 ∨ calculate_temperature P1 V1 mol ≤ 0 ∨
        calculate_temperature P2 V2 mol ≤ 0) →
      calculate_entropy_change rlog P1 V1 P2 V2 gas_type mol = 0) := by
  refine ⟨?_, ?_, ?_, ?_⟩
  · intro P V mol h
    rcases mul_eq_zero.mp h with h0 | h0
    · simp [calculate_temperature, h0]
    · exact absurd h0 R_ne_zero
  · intro T V mol h
    simp [calculate_pressure, h]
  · intro T P mol h
    simp [calculate_volume, h]
  · intro rlog P1 V1 P2 V2 gas_type mol h
    simp only [calculate_entropy_change]
    rw [if_pos h]

/-- C6 witness: the guards evaluated at concrete degenerate inputs. -/
theorem state_model_degenerate_guards_witness :
    calculate_temperature 5 2 0 = 0 ∧ calculate_pressure 300 0 1 = 0 ∧
    calculate_volume 300 0 1 = 0 ∧
    calculate_entropy_change (fun _ => 37) 5 (-2) 1 8 "diatomic" 1 = 0 :=
  ⟨state_model_degenerate_guards.1 5 2 0 (by norm_num),
   state_model_degenerate_guards.2.1 300 0 1 rfl,
   state_model_degenerate_guards.2.2.1 300 0 1 rfl,
   state_model_degenerate_guards.2.2.2 (fun _ => 37) 5 (-2) 1 8 "diatomic" 1
     (Or.inl (by norm_num))⟩

/-- C7: on nonempty grid axes and positive inputs, `find_nearest_grid_point`
returns per-axis argmin indices: both indices are in `[0, gridSize)` and each
minimizes the absolute difference to the requested coordinate on its own axis. -/
theorem find_nearest_grid_point_spec (P V : ℚ) (P_grid V_grid : List ℚ)
    (hP : P_grid ≠ []) (hV : V_grid ≠ []) (hPpos : 0 < P) (hVpos : 0 < V) :
    (find_nearest_grid_point P V P_grid V_grid).1 < P_grid.length ∧
    (find_nearest_grid_point P V P_grid V_grid).2 < V_grid.length ∧
    (∀ k < P_grid.length,
      |P_grid.getD (find_nearest_grid_point P V P_grid V_grid).1 0 - P| ≤
        |P_grid.getD k 0 - P|) ∧
    (∀ k < V_grid.length,
      |V_grid.getD (find_nearest_grid_point P V P_grid V_grid).2 0 - V| ≤
        |V_grid.getD k 0 - V|) := by
  have hPm : P_grid.map (fun x => |x - P|) ≠ [] := by
    simpa [List.map_eq_nil_iff] using hP
  have hVm : V_grid.map (fun x => |x - V|) ≠ [] := by
    simpa [List.map_eq_nil_iff] using hV
  have hP1 : (find_nearest_grid_point P V P_grid V_grid).1 < P_grid.length := by
    have := argmin_lt_length _ hPm
    simpa [find_nearest_grid_point] using this
  have hV1 : (find_nearest_grid_point P V P_grid V_grid).2 < V_grid.length := by
    have := argmin_lt_length _ hVm
    simpa [find_nearest_grid_point] using this
  refine ⟨hP1, hV1, ?_, ?_⟩
  · intro k hk
    have := argmin_min _ hPm k (by simpa using hk)
    rw [getD_map_abs _ _ _ hk, getD_map_abs _ _ _ (by simpa [find_nearest_grid_point] using hP1)]
      at this
    simpa [find_nearest_grid_point] using this
  · intro k hk
    have := argmin_min _ hVm k (by simpa using hk)
    rw [getD_map_abs _ _ _ hk, getD_map_abs _ _ _ (by simpa [find_nearest_grid_point] using hV1)]
      at this
    simpa [find_nearest_grid_point] using this

/-- C7 witness: evaluated on the concrete axes `[1, 4, 10]`, `[2, 8]` with
request `(P, V) = (5, 3)`. -/
theorem find_nearest_grid_point_spec_witness :
    (find_nearest_grid_point 5 3 [1, 4, 10] [2, 8]).1 < 3 ∧
    (find_nearest_grid_point 5 3 [1, 4, 10] [2, 8]).2 < 2 ∧
    (∀ k < ([1, 4, 10] : List ℚ).length,
      |([1, 4, 10] : List ℚ).getD (find_nearest_grid_point 5 3 [1, 4, 10] [2, 8]).1 0 - 5| ≤
        |([1, 4, 10] : List ℚ).getD k 0 - 5|) ∧
    (∀ k < ([2, 8] : List ℚ).length,
      |([2, 8] : List ℚ).getD (find_nearest_grid_point 5 3 [1, 4, 10] [2, 8]).2 0 - 3| ≤
        |([2, 8] : List ℚ).getD k 0 - 3|) := by
  have h := find_nearest_grid_point_spec 5 3 [1, 4, 10] [2, 8] (by decide) (by decide)
    (by norm_num) (by norm_num)
  exact ⟨h.1, h.2.1, h.2.2.1, h.2.2.2⟩

/-- C10: `find_optimal_path` always discretizes the fixed rectangle
`P ∈ [1, 10]`, `V ∈ [1, 10]` (its snapping step `fop_snap_node` is built on
`create_grid 1 10 1 10 grid_size`, only `grid_size` being caller-chosen): the
grid endpoints are 1 and 10, and a requested coordinate outside `[1, 10]` is
silently snapped to the boundary grid index (0 below, `grid_size − 1` above). -/
theorem fop_snap_fixed_rectangle (grid_size : ℕ) (h2 : 2 ≤ grid_size) (P V : ℚ) :
    (create_grid 1 10 1 10 grid_size).1.getD 0 0 = 1 ∧
    (create_grid 1 10 1 10 grid_size).1.getD (grid_size - 1) 0 = 10 ∧
    (10 < P → (fop_snap_node P V grid_size).1 = grid_size - 1) ∧
    (P < 1 → (fop_snap_node P V grid_size).1 = 0) ∧
    (10 < V → (fop_snap_node P V grid_size).2 = grid_size - 1) ∧
    (V < 1 → (fop_snap_node P V grid_size).2 = 0) := by
  have hden : ((grid_size : ℚ) - 1) ≠ 0 := by
    have : (2 : ℚ) ≤ (grid_size : ℚ) := by exact_mod_cast h2
    intro hc
    rw [sub_eq_zero] at hc
    rw [hc] at this
    norm_num at this
  refine ⟨?_, ?_, ?_, ?_, ?_, ?_⟩
  · rw [show (create_grid 1 10 1 10 grid_size).1 = linspace 1 10 grid_size from rfl,
      linspace_getD 1 10 grid_size 0 (by omega)]
    norm_num
  · rw [show (create_grid 1 10 1 10 grid_size).1 = linspace 1 10 grid_size from rfl,
      linspace_getD 1 10 grid_size (grid_size - 1) (by omega)]
    have hcast : ((grid_size - 1 : ℕ) : ℚ) = (grid_size : ℚ) - 1 := by
      have : 1 ≤ grid_size := by omega
      push_cast [this]
      ring
    rw [hcast]
    field_simp
  · intro h
    exact snap_axis_high grid_size h2 P h
  · intro h
    exact snap_axis_low grid_size h2 P h
  · intro h
    exact snap_axis_high grid_size h2 V h
  · intro h
    exact snap_axis_low grid_size h2 V h

/-- C10 witness: with a 3-point grid, the request `(P, V) = (20, 1/2)` is
snapped to the boundary node `(2, 0)`. -/
theorem fop_snap_fixed_rectangle_witness :
    (create_grid 1 10 1 10 3).1.getD 0 0 = 1 ∧
    (create_grid 1 10 1 10 3).1.getD 2 0 = 10 ∧
    ((10 : ℚ) < 20 → (fop_snap_node 20 (1/2) 3).1 = 2) ∧
    ((20 : ℚ) < 1 → (fop_snap_node 20 (1/2) 3).1 = 0) ∧
    ((10 : ℚ) < 1/2 → (fop_snap_node 20 (1/2) 3).2 = 2) ∧
    ((1/2 : ℚ) < 1 → (fop_snap_node 20 (1/2) 3).2 = 0) :=
  fop_snap_fixed_rectangle 3 (by norm_num) 20 (1/2)

/-- C2: every edge `(u → v, w)` of a graph built by `build_graph` has an
in-bounds neighbor index, a neighbor state with `V ≥ 0.1` and `P ≥ 0.1`, every
supplied constraint satisfied (temperature ceiling, pressure floor/ceiling,
and the isothermal band `|ΔT| ≤ 10`), entropy change at least −0.1, and a
weight that is a well-defined rational whose evaluation only ever feeds
strictly positive arguments to the logarithm (the no-NaN certificate). -/
theorem build_graph_edge_invariants (rlog : ℚ → ℚ) (P_grid V_grid : List ℚ)
    (allow_diagonal : Bool) (optimization_target : String)
    (cons : Option Constraints) (i j : ℕ) (nbr : Node) (w : ℚ)
    (hmem : (nbr, w) ∈ (build_graph rlog P_grid V_grid allow_diagonal
      optimization_target cons).adj (i, j)) :
    nbr.1 < P_grid.length ∧ nbr.2 < P_grid.length ∧
    1/10 ≤ V_grid.getD nbr.2 0 ∧ 1/10 ≤ P_grid.getD nbr.1 0 ∧
    (∀ c, cons = some c →
      (∀ mt, c.max_temperature = some mt →
        calculate_temperature (P_grid.getD nbr.1 0) (V_grid.getD nbr.2 0) ≤ mt) ∧
      (∀ mp, c.min_pressure = some mp → mp ≤ P_grid.getD nbr.1 0) ∧
      (∀ mp, c.max_pressure = some mp → P_grid.getD nbr.1 0 ≤ mp) ∧
      (c.isothermal_only = some true →
        |calculate_temperature (P_grid.getD nbr.1 0) (V_grid.getD nbr.2 0) -
          calculate_temperature (P_grid.getD i 0) (V_grid.getD j 0)| ≤ 10)) ∧
    -(1/10) ≤ calculate_entropy_change rlog (P_grid.getD i 0) (V_grid.getD j 0)
      (P_grid.getD nbr.1 0) (V_grid.getD nbr.2 0) ∧
    w = calculate_edge_weight rlog (P_grid.getD i 0) (V_grid.getD j 0)
      (P_grid.getD nbr.1 0) (V_grid.getD nbr.2 0) optimization_target ∧
    edge_weight_log_args_ok (P_grid.getD i 0) (V_grid.getD j 0)
      (P_grid.getD nbr.1 0) (V_grid.getD nbr.2 0) optimization_target := by
  obtain ⟨_, _, hn1, hn2, hvalid, hw⟩ := build_adj_mem_elim rlog P_grid V_grid
    allow_diagonal optimization_target cons i j nbr w hmem
  obtain ⟨hV2, hP2, hcons, hent⟩ := is_valid_edge_elim rlog _ _ _ _ cons hvalid
  refine ⟨hn1, hn2, hV2, hP2, ?_, hent, hw,
    edge_weight_log_args_ok_always _ _ _ _ optimization_target⟩
  intro c hc
  exact constraint_violated_false _ _ _ _ c (hcons c hc)

/-- C2 witness: a concrete edge of a concretely built graph (2×2 grid,
`min_pressure` constraint supplied, `rlog` interpreted as the zero function)
satisfies all the invariants. -/
theorem build_graph_edge_invariants_witness :
    ((1, 1), (1 : ℚ)/100) ∈ (build_graph (fun _ => 0) [2, 3] [2, 3] true
      "min_entropy" (some { min_pressure := some 1 })).adj (0, 0) ∧
    ((1 : ℕ) < 2 ∧ (1 : ℕ) < 2 ∧
      (1 : ℚ)/10 ≤ ([2, 3] : List ℚ).getD 1 0 ∧
      (1 : ℚ)/10 ≤ ([2, 3] : List ℚ).getD 1 0 ∧
      (∀ c, (some { min_pressure := some 1 } : Option Constraints) = some c →
        (∀ mt, c.max_temperature = some mt →
          calculate_temperature (([2, 3] : List ℚ).getD 1 0)
            (([2, 3] : List ℚ).getD 1 0) ≤ mt) ∧
        (∀ mp, c.min_pressure = some mp → mp ≤ ([2, 3] : List ℚ).getD 1 0) ∧
        (∀ mp, c.max_pressure = some mp → ([2, 3] : List ℚ).getD 1 0 ≤ mp) ∧
        (c.isothermal_only = some true →
          |calculate_temperature (([2, 3] : List ℚ).getD 1 0)
              (([2, 3] : List ℚ).getD 1 0) -
            calculate_temperature (([2, 3] : List ℚ).getD 0 0)
              (([2, 3] : List ℚ).getD 0 0)| ≤ 10)) ∧
      -(1/10) ≤ calculate_entropy_change (fun _ => 0) (([2, 3] : List ℚ).getD 0 0)
        (([2, 3] : List ℚ).getD 0 0) (([2, 3] : List ℚ).getD 1 0)
        (([2, 3] : List ℚ).getD 1 0) ∧
      (1 : ℚ)/100 = calculate_edge_weight (fun _ => 0) (([2, 3] : List ℚ).getD 0 0)
        (([2, 3] : List ℚ).getD 0 0) (([2, 3] : List ℚ).getD 1 0)
        (([2, 3] : List ℚ).getD 1 0) "min_entropy" ∧
      edge_weight_log_args_ok (([2, 3] : List ℚ).getD 0 0)
        (([2, 3] : List ℚ).getD 0 0) (([2, 3] : List ℚ).getD 1 0)
        (([2, 3] : List ℚ).getD 1 0) "min_entropy") := by
  have hmem : ((1, 1), (1 : ℚ)/100) ∈ (build_graph (fun _ => 0) [2, 3] [2, 3] true
      "min_entropy" (some { min_pressure := some 1 })).adj (0, 0) := by
    norm_num [build_graph, build_adj, directions, is_valid_edge, constraint_violated,
      calculate_edge_weight, calculate_entropy_change, calculate_temperature,
      get_gas_properties, R, n, List.filterMap]
    right
    right
    rw [if_neg (by decide)]
  exact ⟨hmem, build_graph_edge_invariants (fun _ => 0) [2, 3] [2, 3] true
    "min_entropy" (some { min_pressure := some 1 }) 0 0 (1, 1) (1/100) hmem⟩

/-- C3: for every pair of states, the `min_entropy` edge weight equals the
entropy change itself when `ΔS > 0` and the positive floor `0.01` otherwise,
hence is strictly positive, and consequently every edge weight of a graph
built with the `min_entropy` objective is strictly positive. -/
theorem min_entropy_weight_positive :
    (∀ (rlog : ℚ → ℚ) (P1 V1 P2 V2 : ℚ),
      calculate_edge_weight rlog P1 V1 P2 V2 "min_entropy" =
        (if 0 < calculate_entropy_change rlog P1 V1 P2 V2 then
          calculate_entropy_change rlog P1 V1 P2 V2 else 1/100) ∧
      0 < calculate_edge_weight rlog P1 V1 P2 V2 "min_entropy") ∧
    (∀ (rlog : ℚ → ℚ) (P_grid V_grid : List ℚ) (allow_diagonal : Bool)
      (cons : Option Constraints) (u v : Node) (w : ℚ),
      (v, w) ∈ (build_graph rlog P_grid V_grid allow_diagonal
        "min_entropy" cons).adj u → 0 < w) := by
  refine ⟨fun rlog P1 V1 P2 V2 =>
    ⟨cew_min_entropy_eq rlog P1 V1 P2 V2, cew_min_entropy_pos rlog P1 V1 P2 V2⟩, ?_⟩
  intro rlog P_grid V_grid allow_diagonal cons u v w hmem
  obtain ⟨_, _, _, _, _, hw⟩ := build_adj_mem_elim rlog P_grid V_grid
    allow_diagonal "min_entropy" cons u.1 u.2 v w hmem
  rw [hw]
  exact cew_min_entropy_pos rlog _ _ _ _

/-- C3 witness: the `min_entropy` weight formula and positivity at the concrete
states `(1, 1) → (2, 2)` with `rlog` the zero function, and the positivity of a
concrete edge weight of a concretely built 2×2 graph. -/
theorem min_entropy_weight_positive_witness :
    (calculate_edge_weight (fun _ => 0) 1 1 2 2 "min_entropy" =
      (if 0 < calculate_entropy_change (fun _ => 0) 1 1 2 2 then
        calculate_entropy_change (fun _ => 0) 1 1 2 2 else 1/100) ∧
      0 < calculate_edge_weight (fun _ => 0) 1 1 2 2 "min_entropy") ∧
    (((1, 1), (1 : ℚ)/100) ∈ (build_graph (fun _ => 0) [1, 3] [1, 3] true
      "min_entropy" none).adj (0, 0) ∧ (0 : ℚ) < 1/100) := by
  have hmem : (((1, 1) : Node), (1 : ℚ)/100) ∈ (build_graph (fun _ => 0) [1, 3] [1, 3] true
      "min_entropy" none).adj (0, 0) := by
    norm_num [build_graph, build_adj, directions, is_valid_edge,
      calculate_edge_weight, calculate_entropy_change, calculate_temperature,
      get_gas_properties, R, n, List.filterMap]
    right
    right
    rw [if_neg (by decide)]
  exact ⟨min_entropy_weight_positive.1 (fun _ => 0) 1 1 2 2,
    hmem, min_entropy_weight_positive.2 (fun _ => 0) [1, 3] [1, 3] true none
      (0, 0) (1, 1) (1/100) hmem⟩

/-- C1: on every graph built by `build_graph` whose edge weights are all
non-negative, `dijkstra` started at a node of the graph returns a path from
start to end whose summed edge weight is minimal over all start-to-end paths
(and reports that sum as the returned cost), and returns `(none, ⊤)` exactly
when the end node is unreachable from the start node. -/
theorem dijkstra_optimal_build_graph (rlog : ℚ → ℚ) (P_grid V_grid : List ℚ)
    (ad : Bool) (target : String) (cons : Option Constraints) (s t : Node)
    (hs : s ∈ (build_graph rlog P_grid V_grid ad target cons).nodes)
    (hnn : AllNonneg (build_graph rlog P_grid V_grid ad target cons)) :
    (∀ p, (dijkstra (build_graph rlog P_grid V_grid ad target cons) s t).1 = some p →
      ∃ c : ℚ,
        (dijkstra (build_graph rlog P_grid V_grid ad target cons) s t).2 = (c : Dist) ∧
        IsPath (build_graph rlog P_grid V_grid ad target cons) s p t c ∧
        ∀ p2 (c2 : ℚ),
          IsPath (build_graph rlog P_grid V_grid ad target cons) s p2 t c2 → c ≤ c2) ∧
    ((dijkstra (build_graph rlog P_grid V_grid ad target cons) s t).1 = none ↔
      ¬ Reach (build_graph rlog P_grid V_grid ad target cons) s t) ∧
    ((dijkstra (build_graph rlog P_grid V_grid ad target cons) s t).1 = none →
      (dijkstra (build_graph rlog P_grid V_grid ad target cons) s t).2 = ⊤) := by
  have h := dijkstra_spec (build_graph rlog P_grid V_grid ad target cons) s t
    (build_graph_closed rlog P_grid V_grid ad target cons) hs
  refine ⟨?_, h.2.1, h.2.2⟩
  intro p hp
  obtain ⟨c, hc, hpath, hopt⟩ := h.1 p hp
  exact ⟨c, hc, hpath, hopt hnn⟩

/-- C1 witness: the optimality statement instantiated on a concretely built
2×2 `min_entropy` graph (all of whose weights are non-negative) from node
`(0, 0)` to node `(1, 1)`. -/
theorem dijkstra_optimal_build_graph_witness :
    ((0, 0) : Node) ∈ (build_graph (fun _ => 0) [1, 2] [1, 2] true
      "min_entropy" none).nodes ∧
    AllNonneg (build_graph (fun _ => 0) [1, 2] [1, 2] true "min_entropy" none) ∧
    ((∀ p, (dijkstra (build_graph (fun _ => 0) [1, 2] [1, 2] true
        "min_entropy" none) (0, 0) (1, 1)).1 = some p →
      ∃ c : ℚ,
        (dijkstra (build_graph (fun _ => 0) [1, 2] [1, 2] true
          "min_entropy" none) (0, 0) (1, 1)).2 = (c : Dist) ∧
        IsPath (build_graph (fun _ => 0) [1, 2] [1, 2] true
          "min_entropy" none) (0, 0) p (1, 1) c ∧
        ∀ p2 (c2 : ℚ),
          IsPath (build_graph (fun _ => 0) [1, 2] [1, 2] true
            "min_entropy" none) (0, 0) p2 (1, 1) c2 → c ≤ c2) ∧
    ((dijkstra (build_graph (fun _ => 0) [1, 2] [1, 2] true
        "min_entropy" none) (0, 0) (1, 1)).1 = none ↔
      ¬ Reach (build_graph (fun _ => 0) [1, 2] [1, 2] true
        "min_entropy" none) (0, 0) (1, 1)) ∧
    ((dijkstra (build_graph (fun _ => 0) [1, 2] [1, 2] true
        "min_entropy" none) (0, 0) (1, 1)).1 = none →
      (dijkstra (build_graph (fun _ => 0) [1, 2] [1, 2] true
        "min_entropy" none) (0, 0) (1, 1)).2 = ⊤)) :=
  ⟨by decide, build_graph_min_entropy_nonneg (fun _ => 0) [1, 2] [1, 2] true none,
    dijkstra_optimal_build_graph (fun _ => 0) [1, 2] [1, 2] true "min_entropy"
      none (0, 0) (1, 1) (by decide)
      (build_graph_min_entropy_nonneg (fun _ => 0) [1, 2] [1, 2] true none)⟩

/-- C4: on every graph, when the end node is unreachable from the start node
`dijkstra` returns `(none, ⊤)`, every terminating run of `astar` returns
`(none, ⊤)`, and consequently every terminating run of `find_optimal_path`
whose snapped endpoints are unreachable in the built graph returns the null
result (the functions are total; no exception is modelled). -/
theorem unreachable_returns_none :
    (∀ (g : Graph) (s t : Node), ¬ Reach g s t → dijkstra g s t = (none, ⊤)) ∧
    (∀ (g : Graph) (s t : Node) (P_grid V_grid : List ℚ) (heuristic : String)
      (rlog rsqrt : ℚ → ℚ) (fuel : ℕ) (r : Option (List Node) × Dist),
      ¬ Reach g s t →
      astar g s t P_grid V_grid heuristic rlog rsqrt fuel = some r →
      r = (none, ⊤)) ∧
    (∀ (rlog rsqrt : ℚ → ℚ) (P1 V1 P2 V2 : ℚ) (gsz : ℕ) (ad : Bool)
      (alg target heuristic : String) (cons : Option Constraints) (gas : String)
      (fuel : ℕ) (x : Option PathResult),
      ¬ Reach (build_graph rlog (create_grid 1 10 1 10 gsz).1
          (create_grid 1 10 1 10 gsz).2 ad target cons)
        (fop_snap_node P1 V1 gsz) (fop_snap_node P2 V2 gsz) →
      find_optimal_path rlog rsqrt P1 V1 P2 V2 gsz ad alg target heuristic cons
        gas fuel = some x →
      x = none) := by
  have hd : ∀ (g : Graph) (s t : Node), ¬ Reach g s t →
      dijkstra g s t = (none, ⊤) := by
    intro g s t hnr
    by_cases h : g.Closed ∧ s ∈ g.nodes
    · have hspec := dijkstra_spec g s t h.1 h.2
      have h1 : (dijkstra g s t).1 = none := hspec.2.1.mpr hnr
      exact Prod.ext h1 (hspec.2.2 h1)
    · rw [dijkstra, dif_neg h]
  have ha : ∀ (g : Graph) (s t : Node) (P_grid V_grid : List ℚ)
      (heuristic : String) (rlog rsqrt : ℚ → ℚ) (fuel : ℕ)
      (r : Option (List Node) × Dist), ¬ Reach g s t →
      astar g s t P_grid V_grid heuristic rlog rsqrt fuel = some r →
      r = (none, ⊤) := by
    intro g s t P_grid V_grid heuristic rlog rsqrt fuel r hnr hr
    rcases astar_spec g s t P_grid V_grid heuristic rlog rsqrt fuel r hr with
      ⟨h1, h2⟩ | ⟨hre, _⟩
    · exact Prod.ext h1 h2
    · exact absurd hre hnr
  refine ⟨hd, ha, ?_⟩
  intro rlog rsqrt P1 V1 P2 V2 gsz ad alg target heuristic cons gas fuel x hnr heq
  rw [find_optimal_path] at heq
  by_cases halg : alg = "astar"
  · rw [if_pos halg] at heq
    cases hres : astar (build_graph rlog (create_grid 1 10 1 10 gsz).1
        (create_grid 1 10 1 10 gsz).2 ad target cons)
        (fop_snap_node P1 V1 gsz) (fop_snap_node P2 V2 gsz)
        (create_grid 1 10 1 10 gsz).1 (create_grid 1 10 1 10 gsz).2
        heuristic rlog rsqrt fuel with
    | none =>
      rw [hres] at heq
      exact absurd heq (by simp)
    | some r =>
      rw [hres] at heq
      have hr0 := ha _ _ _ _ _ _ _ _ _ _ hnr hres
      rw [hr0] at heq
      dsimp only at heq
      exact (Option.some.inj heq).symm
  · rw [if_neg halg] at heq
    have hr0 := hd _ _ _ hnr
    rw [hr0] at heq
    dsimp only at heq
    exact (Option.some.inj heq).symm

/-- C4 witness: a concrete edgeless graph where `(1, 1)` is unreachable from
`(0, 0)` (so `dijkstra` and a terminating `astar` run both return
`(none, ⊤)`), and a concrete `find_optimal_path` request whose constraints
eliminate every edge of the built graph, returning the null result. -/
theorem unreachable_returns_none_witness :
    (¬ Reach (⟨[((0, 0) : Node)], fun _ => []⟩ : Graph) (0, 0) (1, 1)) ∧
    dijkstra (⟨[((0, 0) : Node)], fun _ => []⟩ : Graph) (0, 0) (1, 1) =
      (none, ⊤) ∧
    astar (⟨[((0, 0) : Node)], fun _ => []⟩ : Graph) (0, 0) (1, 1) [] []
      "manhattan" (fun _ => 0) (fun _ => 0) 2 = some (none, ⊤) ∧
    (¬ Reach (build_graph (fun _ => 0) (create_grid 1 10 1 10 2).1
        (create_grid 1 10 1 10 2).2 false "max_work"
        (some { max_pressure := some 0 }))
      (fop_snap_node 1 1 2) (fop_snap_node 10 10 2)) ∧
    find_optimal_path (fun _ => 0) (fun _ => 0) 1 1 10 10 2 false "dijkstra"
      "max_work" "manhattan" (some { max_pressure := some 0 }) "monatomic" 5 =
      some none ∧
    ((none, (⊤ : Dist)) : Option (List Node) × Dist) = (none, ⊤) ∧
    (none : Option PathResult) = none := by
  have hnrE : ¬ Reach (⟨[((0, 0) : Node)], fun _ => []⟩ : Graph) (0, 0) (1, 1) := by
    intro hr
    have h := reach_no_edges _ (fun _ => rfl) _ _ hr
    exact absurd h (by decide)
  have hast : astar (⟨[((0, 0) : Node)], fun _ => []⟩ : Graph) (0, 0) (1, 1)
      [] [] "manhattan" (fun _ => 0) (fun _ => 0) 2 = some (none, ⊤) := by
    rw [astar]
    dsimp only
    rw [astar_loop]
    dsimp only [pq_min3, select_min3]
    rw [if_neg (not_not_intro (List.mem_singleton.mpr rfl))]
    rw [if_neg (by decide : ¬ ((0, 0) : Node) = (1, 1))]
    dsimp only [astar_relax]
    rw [List.erase_cons_head, List.erase_cons_head]
    rw [astar_loop]
    rfl
  have hrange2 : List.range 2 = [0, 1] := rfl
  have hPG : (create_grid 1 10 1 10 2).1 = [1, 10] := by
    norm_num [create_grid, linspace, hrange2]
  have hVG : (create_grid 1 10 1 10 2).2 = [1, 10] := hPG
  have hsnapS : fop_snap_node 1 1 2 = (0, 0) := by
    rw [fop_snap_node, find_nearest_grid_point, hPG, hVG]
    norm_num [argmin, argmin_aux]
  have hsnapE : fop_snap_node 10 10 2 = (1, 1) := by
    rw [fop_snap_node, find_nearest_grid_point, hPG, hVG]
    norm_num [argmin, argmin_aux]
  have hadj : ∀ v, (build_graph (fun _ => 0) (create_grid 1 10 1 10 2).1
      (create_grid 1 10 1 10 2).2 false "max_work"
      (some { max_pressure := some 0 })).adj v = [] := by
    intro v
    show build_adj (fun _ => 0) (create_grid 1 10 1 10 2).1
      (create_grid 1 10 1 10 2).2 false "max_work"
      (some { max_pressure := some 0 }) v = []
    by_cases hv : v.1 < (create_grid 1 10 1 10 2).1.length ∧
        v.2 < (create_grid 1 10 1 10 2).1.length
    · rw [hPG] at hv ⊢
      rw [hVG]
      obtain ⟨i, j⟩ := v
      obtain ⟨hi, hj⟩ := hv
      dsimp only at hi hj
      norm_num at hi hj
      interval_cases i <;> interval_cases j <;>
        norm_num [build_adj, directions, is_valid_edge, constraint_violated,
          List.filterMap, calculate_temperature, R, n]
    · exact build_adj_oob _ _ _ _ _ _ v hv
  have hnrW : ¬ Reach (build_graph (fun _ => 0) (create_grid 1 10 1 10 2).1
      (create_grid 1 10 1 10 2).2 false "max_work"
      (some { max_pressure := some 0 }))
      (fop_snap_node 1 1 2) (fop_snap_node 10 10 2) := by
    intro hr
    have h := reach_no_edges _ hadj _ _ hr
    rw [hsnapS, hsnapE] at h
    exact absurd h (by decide)
  have hfop : find_optimal_path (fun _ => 0) (fun _ => 0) 1 1 10 10 2 false
      "dijkstra" "max_work" "manhattan" (some { max_pressure := some 0 })
      "monatomic" 5 = some none := by
    rw [find_optimal_path]
    rw [if_neg (by decide)]
    rw [hsnapS, hsnapE]
    have hnrW2 : ¬ Reach (build_graph (fun _ => 0) (create_grid 1 10 1 10 2).1
        (create_grid 1 10 1 10 2).2 false "max_work"
        (some { max_pressure := some 0 })) (0, 0) (1, 1) := by
      rw [← hsnapS, ← hsnapE]
      exact hnrW
    rw [unreachable_returns_none.1 _ _ _ hnrW2]
  exact ⟨hnrE, unreachable_returns_none.1 _ _ _ hnrE, hast, hnrW, hfop,
    unreachable_returns_none.2.1 _ _ _ _ _ _ _ _ 2 _ hnrE hast,
    unreachable_returns_none.2.2 (fun _ => 0) (fun _ => 0) 1 1 10 10 2 false
      "dijkstra" "max_work" "manhattan" (some { max_pressure := some 0 })
      "monatomic" 5 none hnrW hfop⟩

/-- C5: when the snapped start and goal grid nodes coincide, `find_optimal_path`
(under both the dijkstra and the astar algorithm, given at least one unit of
the model's fuel) returns a non-null result whose node path has length 1 and
whose total cost is 0. -/
theorem fop_coincident_trivial (rlog rsqrt : ℚ → ℚ) (P1 V1 P2 V2 : ℚ)
    (gsz : ℕ) (hgs : 0 < gsz) (ad : Bool) (alg target heuristic : String)
    (cons : Option Constraints) (gas : String) (fuel : ℕ)
    (hsnap : fop_snap_node P1 V1 gsz = fop_snap_node P2 V2 gsz) :
    ∃ r, find_optimal_path rlog rsqrt P1 V1 P2 V2 gsz ad alg target heuristic
        cons gas (fuel + 1) = some (some r) ∧
      r.path_nodes.length = 1 ∧ r.total_cost = ((0 : ℚ) : Dist) := by
  rw [find_optimal_path]
  rw [← hsnap]
  by_cases halg : alg = "astar"
  · rw [if_pos halg]
    rw [astar_self]
    dsimp only
    rw [if_neg (by simp : ¬ ([fop_snap_node P1 V1 gsz].length = 0))]
    exact ⟨_, rfl, rfl, rfl⟩
  · rw [if_neg halg]
    have hv : fop_snap_node P1 V1 gsz ∈ (build_graph rlog
        (create_grid 1 10 1 10 gsz).1 (create_grid 1 10 1 10 gsz).2
        ad target cons).nodes := by
      rw [build_graph_nodes_mem]
      rw [show (create_grid 1 10 1 10 gsz).1.length = gsz from
        linspace_length 1 10 gsz]
      exact fop_snap_lt P1 V1 gsz hgs
    rw [dijkstra_self _ _ (build_graph_closed rlog _ _ ad target cons) hv]
    dsimp only
    rw [if_neg (by simp : ¬ ([fop_snap_node P1 V1 gsz].length = 0))]
    exact ⟨_, rfl, rfl, rfl⟩

/-- C5 witness: a 1×1 grid snaps the distinct requests `(2, 2)` and `(3, 3)`
to the same node, and `find_optimal_path` returns the trivial one-node path of
cost 0. -/
theorem fop_coincident_trivial_witness :
    (0 : ℕ) < 1 ∧ fop_snap_node 2 2 1 = fop_snap_node 3 3 1 ∧
    ∃ r, find_optimal_path (fun _ => 0) (fun _ => 0) 2 2 3 3 1 true "dijkstra"
        "max_work" "manhattan" none "monatomic" (0 + 1) = some (some r) ∧
      r.path_nodes.length = 1 ∧ r.total_cost = ((0 : ℚ) : Dist) :=
  ⟨by decide, rfl, fop_coincident_trivial (fun _ => 0) (fun _ => 0) 2 2 3 3 1
    (by decide) true "dijkstra" "max_work" "manhattan" none "monatomic" 0 rfl⟩

/-- C8: every non-null result of `find_optimal_path` has `P_array` and
`V_array` whose first entries are the grid coordinates of the grid node
nearest the requested start state `(P1, V1)` and whose last entries are the
grid coordinates of the grid node nearest the requested goal state
`(P2, V2)`. -/
theorem fop_result_endpoints (rlog rsqrt : ℚ → ℚ) (P1 V1 P2 V2 : ℚ)
    (gsz : ℕ) (ad : Bool) (alg target heuristic : String)
    (cons : Option Constraints) (gas : String) (fuel : ℕ) (r : PathResult)
    (h : find_optimal_path rlog rsqrt P1 V1 P2 V2 gsz ad alg target heuristic
      cons gas fuel = some (some r)) :
    r.P_array.head? = some ((create_grid 1 10 1 10 gsz).1.getD
      (fop_snap_node P1 V1 gsz).1 0) ∧
    r.V_array.head? = some ((create_grid 1 10 1 10 gsz).2.getD
      (fop_snap_node P1 V1 gsz).2 0) ∧
    r.P_array.getLast? = some ((create_grid 1 10 1 10 gsz).1.getD
      (fop_snap_node P2 V2 gsz).1 0) ∧
    r.V_array.getLast? = some ((create_grid 1 10 1 10 gsz).2.getD
      (fop_snap_node P2 V2 gsz).2 0) := by
  suffices hsuf : ∃ pn tc,
      r = fop_result rlog P1 V1 P2 V2 gsz alg target gas pn tc ∧
      pn.head? = some (fop_snap_node P1 V1 gsz) ∧
      pn.getLast? = some (fop_snap_node P2 V2 gsz) by
    obtain ⟨pn, tc, hr, hh, hl⟩ := hsuf
    subst hr
    refine ⟨?_, ?_, ?_, ?_⟩ <;>
      simp only [fop_result, List.head?_map, List.getLast?_map, hh, hl] <;> rfl
  rw [find_optimal_path] at h
  by_cases halg : alg = "astar"
  · rw [if_pos halg] at h
    cases hres : astar (build_graph rlog (create_grid 1 10 1 10 gsz).1
        (create_grid 1 10 1 10 gsz).2 ad target cons)
        (fop_snap_node P1 V1 gsz) (fop_snap_node P2 V2 gsz)
        (create_grid 1 10 1 10 gsz).1 (create_grid 1 10 1 10 gsz).2
        heuristic rlog rsqrt fuel with
    | none =>
      rw [hres] at h
      exact absurd h (by simp)
    | some pr =>
      obtain ⟨pnopt, tc⟩ := pr
      rw [hres] at h
      dsimp only at h
      cases pnopt with
      | none => exact absurd h (by simp)
      | some pn =>
        dsimp only at h
        by_cases hlen : pn.length = 0
        · rw [if_pos hlen] at h
          exact absurd h (by simp)
        · rw [if_neg hlen] at h
          rcases astar_spec _ _ _ _ _ _ _ _ _ _ hres with ⟨h1, _⟩ |
            ⟨_, p, hp1, hph, hpl⟩
          · exact absurd h1 (by simp)
          · have hpp : pn = p := by simpa using hp1
            subst hpp
            exact ⟨pn, tc, (Option.some.inj (Option.some.inj h)).symm, hph, hpl⟩
  · rw [if_neg halg] at h
    by_cases hpre : (build_graph rlog (create_grid 1 10 1 10 gsz).1
        (create_grid 1 10 1 10 gsz).2 ad target cons).Closed ∧
        fop_snap_node P1 V1 gsz ∈ (build_graph rlog (create_grid 1 10 1 10 gsz).1
          (create_grid 1 10 1 10 gsz).2 ad target cons).nodes
    · have hspec := dijkstra_spec (build_graph rlog (create_grid 1 10 1 10 gsz).1
        (create_grid 1 10 1 10 gsz).2 ad target cons) (fop_snap_node P1 V1 gsz)
        (fop_snap_node P2 V2 gsz) hpre.1 hpre.2
      rcases hdd : dijkstra (build_graph rlog (create_grid 1 10 1 10 gsz).1
          (create_grid 1 10 1 10 gsz).2 ad target cons)
          (fop_snap_node P1 V1 gsz) (fop_snap_node P2 V2 gsz) with ⟨pnopt, tc⟩
      rw [hdd] at h hspec
      dsimp only at h hspec
      cases pnopt with
      | none => exact absurd h (by simp)
      | some pn =>
        dsimp only at h
        by_cases hlen : pn.length = 0
        · rw [if_pos hlen] at h
          exact absurd h (by simp)
        · rw [if_neg hlen] at h
          obtain ⟨c, _, hpath, _⟩ := hspec.1 pn rfl
          exact ⟨pn, tc, (Option.some.inj (Option.some.inj h)).symm,
            ispath_head hpath, ispath_last hpath⟩
    · rw [dijkstra, dif_neg hpre] at h
      exact absurd h (by simp)

/-- C8 witness: the concrete `astar` request on a 1×1 grid returns the one-node
path result, whose array endpoints are the snapped start/goal grid
coordinates. -/
theorem fop_result_endpoints_witness :
    find_optimal_path (fun _ => 0) (fun _ => 0) 1 1 1 1 1 true "astar"
        "max_work" "manhattan" none "monatomic" 3 =
      some (some (fop_result (fun _ => 0) 1 1 1 1 1 "astar" "max_work"
        "monatomic" [(0, 0)] ((0 : ℚ) : Dist))) ∧
    ((fop_result (fun _ => 0) 1 1 1 1 1 "astar" "max_work" "monatomic"
        [(0, 0)] ((0 : ℚ) : Dist)).P_array.head? =
      some ((create_grid 1 10 1 10 1).1.getD (fop_snap_node 1 1 1).1 0) ∧
    (fop_result (fun _ => 0) 1 1 1 1 1 "astar" "max_work" "monatomic"
        [(0, 0)] ((0 : ℚ) : Dist)).V_array.head? =
      some ((create_grid 1 10 1 10 1).2.getD (fop_snap_node 1 1 1).2 0) ∧
    (fop_result (fun _ => 0) 1 1 1 1 1 "astar" "max_work" "monatomic"
        [(0, 0)] ((0 : ℚ) : Dist)).P_array.getLast? =
      some ((create_grid 1 10 1 10 1).1.getD (fop_snap_node 1 1 1).1 0) ∧
    (fop_result (fun _ => 0) 1 1 1 1 1 "astar" "max_work" "monatomic"
        [(0, 0)] ((0 : ℚ) : Dist)).V_array.getLast? =
      some ((create_grid 1 10 1 10 1).2.getD (fop_snap_node 1 1 1).2 0)) := by
  have h : find_optimal_path (fun _ => 0) (fun _ => 0) 1 1 1 1 1 true "astar"
      "max_work" "manhattan" none "monatomic" 3 =
      some (some (fop_result (fun _ => 0) 1 1 1 1 1 "astar" "max_work"
        "monatomic" [(0, 0)] ((0 : ℚ) : Dist))) := rfl
  exact ⟨h, fop_result_endpoints (fun _ => 0) (fun _ => 0) 1 1 1 1 1 true
    "astar" "max_work" "manhattan" none "monatomic" 3 _ h⟩

/-- C9: `find_optimal_path` results for any two `gas_type` values and
otherwise identical arguments agree on everything except the reported
endpoint quantities (`dU`, `dH`, `Q`, `dS`, `dG`, `efficiency`) and the echoed
`gas_type` itself: in particular `path_nodes` and `total_cost` (as well as the
realized `P_array`/`V_array` and the work terms) are identical, because edge
validity and edge weights never see `gas_type`. -/
theorem fop_gas_type_independent (rlog rsqrt : ℚ → ℚ) (P1 V1 P2 V2 : ℚ)
    (gsz : ℕ) (ad : Bool) (alg target heuristic : String)
    (cons : Option Constraints) (gas1 gas2 : String) (fuel : ℕ) :
    (find_optimal_path rlog rsqrt P1 V1 P2 V2 gsz ad alg target heuristic cons
        gas1 fuel).map (Option.map (fun r =>
          (r.P_array, r.V_array, r.W, r.W_reversible, r.rtype, r.algorithm,
            r.optimization_target, r.path_nodes, r.total_cost))) =
    (find_optimal_path rlog rsqrt P1 V1 P2 V2 gsz ad alg target heuristic cons
        gas2 fuel).map (Option.map (fun r =>
          (r.P_array, r.V_array, r.W, r.W_reversible, r.rtype, r.algorithm,
            r.optimization_target, r.path_nodes, r.total_cost))) := by
  rw [find_optimal_path, find_optimal_path]
  generalize (if alg = "astar" then
    astar (build_graph rlog (create_grid 1 10 1 10 gsz).1
      (create_grid 1 10 1 10 gsz).2 ad target cons)
      (fop_snap_node P1 V1 gsz) (fop_snap_node P2 V2 gsz)
      (create_grid 1 10 1 10 gsz).1 (create_grid 1 10 1 10 gsz).2
      heuristic rlog rsqrt fuel
    else some (dijkstra (build_graph rlog (create_grid 1 10 1 10 gsz).1
      (create_grid 1 10 1 10 gsz).2 ad target cons)
      (fop_snap_node P1 V1 gsz) (fop_snap_node P2 V2 gsz))) = res
  cases res with
  | none => rfl
  | some pr =>
    obtain ⟨pnopt, tc⟩ := pr
    cases pnopt with
    | none => rfl
    | some pn =>
      dsimp only
      split_ifs with hlen
      · rfl
      · rfl

end ThermoSim
